import Mathlib

/-!
Verification of the C# class-file organization tool (code-organization-tool.py).

The development shallowly embeds the tool's text pipeline over `List Char`:
Python regular expressions are modelled either by a small backtracking
engine (`Reg` / `reM`) that mirrors Python's leftmost, greedy, first-success
exploration order, or — for the three line-anchored `re.sub` cleanup
patterns of `parse_class_members` — by dedicated deterministic matchers
whose greedy match end is derived in comments from the pattern.  All
recursion is structural (fuel where needed), so every definition evaluates
inside the kernel on concrete inputs.
-/

/-- Python's whitespace class `\s` over ASCII: space, tab, newline, carriage
return, vertical tab and form feed. -/
def pyWs (c : Char) : Bool :=
  c == ' ' || c == '\t' || c == '\n' || c == '\r' ||
    c == Char.ofNat 11 || c == Char.ofNat 12

/-- Python's word class `\w` over ASCII: letters, digits and underscore. -/
def wordChar (c : Char) : Bool :=
  c.isAlpha || c.isDigit || c == '_'

/-- Split a character list at newline characters, Python `str.split('\n')`:
always at least one (possibly empty) line, no separator kept. -/
def splitNl : List Char → List (List Char)
  | [] => [[]]
  | c :: t =>
    if c == '\n' then [] :: splitNl t
    else
      match splitNl t with
      | h :: r => (c :: h) :: r
      | [] => [[c]]

/-- Join lines with newline separators, Python `'\n'.join`. -/
def joinNl (ls : List (List Char)) : List Char :=
  List.intercalate ['\n'] ls

/-- Python `str.strip()` on a character list: drop leading and trailing
whitespace. -/
def pyStripL (l : List Char) : List Char :=
  (((l.dropWhile pyWs).reverse.dropWhile pyWs).reverse)

/-- Python `str.strip()` on strings. -/
def pyStrip (s : String) : String :=
  String.mk (pyStripL s.data)

/-- Python's substring test `needle in haystack`. -/
def containsSub (needle : List Char) : List Char → Bool
  | [] => needle.isPrefixOf []
  | c :: t => needle.isPrefixOf (c :: t) || containsSub needle t

/-- Python `str.replace(needle, repl)`: leftmost non-overlapping
replacement, scanning left to right.  Fuel-driven; `fuel ≥ length + 1`
suffices because every step consumes at least one character when the
needle is nonempty. -/
def replaceAll (needle repl : List Char) : Nat → List Char → List Char
  | 0, l => l
  | fuel + 1, l =>
    if needle.isPrefixOf l ∧ needle ≠ [] then
      repl ++ replaceAll needle repl fuel (l.drop needle.length)
    else
      match l with
      | [] => []
      | c :: t => c :: replaceAll needle repl fuel t

/-- Collapse every maximal whitespace run to a single space, Python
`re.sub(r'\s+', ' ', text)`.  The flag records whether the previous
character was whitespace (run already emitted). -/
def collapseWsGo (prevWs : Bool) : List Char → List Char
  | [] => []
  | c :: t =>
    if pyWs c then
      if prevWs then collapseWsGo true t else ' ' :: collapseWsGo true t
    else c :: collapseWsGo false t

/-- Python `re.sub(r'\s+', ' ', text)`. -/
def collapseWs (l : List Char) : List Char :=
  collapseWsGo false l

/-! ## A small regular-expression engine

`Reg` is the abstract syntax of the fragment the tool's patterns use.
`reM` is a continuation-passing backtracking matcher exploring branches in
exactly Python's preference order: alternatives left to right, `*` and `?`
greedy (more repetitions first).  A star iteration must consume at least
one character, which agrees with Python because every starred subpattern
of the tool requires at least one character.  Anchors `^`/`$` use
MULTILINE semantics, matching the flags of every anchored source pattern;
`.` never matches a newline (no source pattern combines `.` with DOTALL).
The matcher carries the previously consumed character so `^` can test it,
and returns the remaining suffix after the match. -/
inductive Reg where
  | eps : Reg
  | cls : (Char → Bool) → Reg
  | seq : Reg → Reg → Reg
  | alt : Reg → Reg → Reg
  | star : Reg → Reg
  | nla : Reg → Reg
  | bol : Reg
  | eol : Reg

/-- The backtracking matcher.  `prev` is the character just before the
current position (`none` at the very start of the text), `k` the
continuation receiving the state after the piece matched.  Fuel bounds the
depth of the exploration; the wrappers pass `length + 600`, ample for the
tool's patterns (their nesting depth is far below 600 and each star
iteration consumes a character). -/
def reM : Nat → Reg → Option Char → List Char →
    (Option Char → List Char → Option (Option Char × List Char)) →
    Option (Option Char × List Char)
  | 0, _, _, _, _ => none
  | fuel + 1, r, prev, l, k =>
    match r with
    | .eps => k prev l
    | .cls p =>
      match l with
      | [] => none
      | c :: t => if p c then k (some c) t else none
    | .seq a b => reM fuel a prev l (fun p2 l2 => reM fuel b p2 l2 k)
    | .alt a b =>
      match reM fuel a prev l k with
      | some x => some x
      | none => reM fuel b prev l k
    | .star a =>
      match reM fuel a prev l (fun p2 l2 =>
          if l2.length < l.length then reM fuel (.star a) p2 l2 k else none) with
      | some x => some x
      | none => k prev l
    | .nla a =>
      match reM fuel a prev l (fun p2 l2 => some (p2, l2)) with
      | some _ => none
      | none => k prev l
    | .bol =>
      match prev with
      | none => k prev l
      | some c => if c == '\n' then k prev l else none
    | .eol =>
      match l with
      | [] => k prev l
      | c :: _ => if c == '\n' then k prev l else none

/-- Try a full match of `r` starting exactly at the head of `l`. -/
def reMatchHere (r : Reg) (prev : Option Char) (l : List Char) :
    Option (Option Char × List Char) :=
  reM (l.length + 600) r prev l (fun p2 l2 => some (p2, l2))

/-- Python `re.search`: try the pattern at every start position, leftmost
match wins.  Returns the state after the match. -/
def reSearchFrom : Nat → Reg → Option Char → List Char →
    Option (Option Char × List Char)
  | 0, _, _, _ => none
  | fuel + 1, r, prev, l =>
    match reMatchHere r prev l with
    | some x => some x
    | none =>
      match l with
      | [] => none
      | c :: t => reSearchFrom fuel r (some c) t

/-- Whether `re.search(pattern, text)` finds a match. -/
def reTest (r : Reg) (l : List Char) : Bool :=
  (reSearchFrom (l.length + 1) r none l).isSome

/-- Python `len(re.findall(pattern, text))`: leftmost non-overlapping
matches; after a match the scan resumes at its end (one character further
for an empty match, as Python does). -/
def reCountFrom : Nat → Reg → Option Char → List Char → Nat
  | 0, _, _, _ => 0
  | fuel + 1, r, prev, l =>
    match reMatchHere r prev l with
    | some (p2, l2) =>
      if l2.length < l.length then 1 + reCountFrom fuel r p2 l2
      else
        match l with
        | [] => 1
        | c :: t => 1 + reCountFrom fuel r (some c) t
    | none =>
      match l with
      | [] => 0
      | c :: t => reCountFrom fuel r (some c) t

/-- The findall count of a pattern over a text. -/
def reCount (r : Reg) (l : List Char) : Nat :=
  reCountFrom (l.length + 1) r none l

/-- Python `re.finditer`, keeping each match's text: leftmost
non-overlapping, resuming after each match. -/
def reFindTextsFrom : Nat → Reg → Option Char → List Char → List (List Char)
  | 0, _, _, _ => []
  | fuel + 1, r, prev, l =>
    match reMatchHere r prev l with
    | some (p2, l2) =>
      if l2.length < l.length then
        l.take (l.length - l2.length) :: reFindTextsFrom fuel r p2 l2
      else
        match l with
        | [] => [[]]
        | c :: t => [] :: reFindTextsFrom fuel r (some c) t
    | none =>
      match l with
      | [] => []
      | c :: t => reFindTextsFrom fuel r (some c) t

/-- The texts of all matches of a pattern over a text. -/
def reFindTexts (r : Reg) (l : List Char) : List (List Char) :=
  reFindTextsFrom (l.length + 1) r none l

/-! ### Pattern constructors -/

/-- A single literal character. -/
def rchar (c : Char) : Reg :=
  .cls (fun d => d == c)

/-- A single literal character, case-insensitively (IGNORECASE flag). -/
def rcharCI (c : Char) : Reg :=
  .cls (fun d => d.toLower == c.toLower)

/-- A literal string. -/
def rstr (s : String) : Reg :=
  (s.data.map rchar).foldr .seq .eps

/-- A literal string, case-insensitively. -/
def rstrCI (s : String) : Reg :=
  (s.data.map rcharCI).foldr .seq .eps

/-- The sequence of a list of pieces. -/
def rseq (rs : List Reg) : Reg :=
  rs.foldr .seq .eps

/-- An alternation tried left to right, `a|b1|b2|…`. -/
def ralt1 (a : Reg) (bs : List Reg) : Reg :=
  bs.foldl .alt a

/-- Greedy option `r?`. -/
def ropt (r : Reg) : Reg :=
  .alt r .eps

/-- Greedy plus `r+`. -/
def rplus (r : Reg) : Reg :=
  .seq r (.star r)

/-- `\s` as a pattern. -/
def rws : Reg :=
  .cls pyWs

/-- `\s*`. -/
def rwss : Reg :=
  .star rws

/-- `\s+`. -/
def rwsp : Reg :=
  rplus rws

/-- A negated character class `[^…]`. -/
def rnot (cs : List Char) : Reg :=
  .cls (fun c => !(cs.contains c))

/-- `\w+`. -/
def rwordp : Reg :=
  rplus (.cls wordChar)

/-- `.` without DOTALL: any character but a newline. -/
def rdot : Reg :=
  .cls (fun c => c != '\n')

/-! ## The tool's regular expressions

Each definition transcribes one pattern of code-organization-tool.py; the
Python source pattern is quoted in the doc comment. -/

/-- `godot_patterns['signals']`: `\[Signal\]\s+public\s+delegate\s+[^;]+;`. -/
def pat_signals : Reg :=
  rseq [rstr "[Signal]", rwsp, rstr "public", rwsp, rstr "delegate", rwsp,
    rplus (rnot [';']), rchar ';']

/-- The parenthesised part of `godot_patterns['exports']`:
`\([^)]*(?:\([^)]*\)[^)]*)*\)`. -/
def pat_exports_paren : Reg :=
  rseq [rchar '(', .star (rnot [')']),
    .star (rseq [rchar '(', .star (rnot [')']), rchar ')', .star (rnot [')'])]),
    rchar ')']

/-- `godot_patterns['exports']`:
`\[Export(?:\([^)]*(?:\([^)]*\)[^)]*)*\))?\]\s*\n?\s*(?:public\s+|private\s+|protected\s+)?[^;{]+[;{]`
(MULTILINE and DOTALL change nothing here: no anchor, no dot). -/
def pat_exports : Reg :=
  rseq [rstr "[Export", ropt pat_exports_paren, rstr "]", rwss,
    ropt (rchar '\n'), rwss,
    ropt (ralt1 (rseq [rstr "public", rwsp])
      [rseq [rstr "private", rwsp], rseq [rstr "protected", rwsp]]),
    rplus (rnot [';', '{']), .cls (fun c => c == ';' || c == '{')]

/-- The modifier run `(?:(?:partial|abstract|static|readonly)\s+)*` shared
by the type patterns. -/
def pat_mods : Reg :=
  .star (rseq [ralt1 (rstr "partial")
    [rstr "abstract", rstr "static", rstr "readonly"], rwsp])

/-- The type-count pattern of `validate_organized_content`:
`public\s+(?:(?:partial|abstract|static|readonly)\s+)*(?:class|struct|record|interface)\s+\w+`. -/
def pat_type_count : Reg :=
  rseq [rstr "public", rwsp, pat_mods,
    ralt1 (rstr "class") [rstr "struct", rstr "record", rstr "interface"],
    rwsp, rwordp]

/-- The method-count pattern of `validate_organized_content`:
`(public|private|protected)\s+[^=]*\([^)]*\)\s*{`. -/
def pat_method_count : Reg :=
  rseq [ralt1 (rstr "public") [rstr "private", rstr "protected"], rwsp,
    .star (rnot ['=']), rchar '(', .star (rnot [')']), rchar ')', rwss,
    rchar '{']

/-- One `// <name>` organization-section pattern of `is_already_organized`:
`^\s*//\s*<name>\s*$` with MULTILINE and IGNORECASE. -/
def pat_sec_comment (name : String) : Reg :=
  rseq [.bol, rwss, rstr "//", rwss, rstrCI name, rwss, .eol]

/-- `^\s*#region\s+(Fields|Constants|Exported?\s*Fields|Private\s*Fields)\s*$`
(MULTILINE, IGNORECASE). -/
def pat_sec_region1 : Reg :=
  rseq [.bol, rwss, rstrCI "#region", rwsp,
    ralt1 (rstrCI "Fields")
      [rstrCI "Constants",
       rseq [rstrCI "Exporte", ropt (rcharCI 'd'), rwss, rstrCI "Fields"],
       rseq [rstrCI "Private", rwss, rstrCI "Fields"]],
    rwss, .eol]

/-- `^\s*#region\s+(Properties|Virtual\s*Properties)\s*$` (MULTILINE,
IGNORECASE). -/
def pat_sec_region2 : Reg :=
  rseq [.bol, rwss, rstrCI "#region", rwsp,
    ralt1 (rstrCI "Properties")
      [rseq [rstrCI "Virtual", rwss, rstrCI "Properties"]],
    rwss, .eol]

/-- `^\s*#region\s+(Public\s*Methods?|Private\s*Methods?|Protected\s*Methods?)\s*$`
(MULTILINE, IGNORECASE). -/
def pat_sec_region3 : Reg :=
  rseq [.bol, rwss, rstrCI "#region", rwsp,
    ralt1 (rseq [rstrCI "Public", rwss, rstrCI "Method", ropt (rcharCI 's')])
      [rseq [rstrCI "Private", rwss, rstrCI "Method", ropt (rcharCI 's')],
       rseq [rstrCI "Protected", rwss, rstrCI "Method", ropt (rcharCI 's')]],
    rwss, .eol]

/-- `^\s*#region\s+(Enums?|Constants?|Signals?)\s*$` (MULTILINE,
IGNORECASE). -/
def pat_sec_region4 : Reg :=
  rseq [.bol, rwss, rstrCI "#region", rwsp,
    ralt1 (rseq [rstrCI "Enum", ropt (rcharCI 's')])
      [rseq [rstrCI "Constant", ropt (rcharCI 's')],
       rseq [rstrCI "Signal", ropt (rcharCI 's')]],
    rwss, .eol]

/-- The twelve organization-section patterns of `is_already_organized`, in
source order. -/
def organization_patterns : List Reg :=
  [pat_sec_comment "Fields", pat_sec_comment "Properties",
   pat_sec_comment "Public Methods", pat_sec_comment "Protected Methods",
   pat_sec_comment "Private Methods", pat_sec_comment "Constants",
   pat_sec_comment "Enums", pat_sec_comment "Signals",
   pat_sec_region1, pat_sec_region2, pat_sec_region3, pat_sec_region4]

/-- `has_fields` pattern of `is_already_organized`:
`^\s*(private|protected|public|internal|readonly)\s+[^{(]+[;=][^}]*$`
(MULTILINE). -/
def pat_has_fields : Reg :=
  rseq [.bol, rwss,
    ralt1 (rstr "private")
      [rstr "protected", rstr "public", rstr "internal", rstr "readonly"],
    rwsp, rplus (rnot ['{', '(']), .cls (fun c => c == ';' || c == '='),
    .star (rnot ['}']), .eol]

/-- `has_properties` pattern: `{\s*(get|set)` (also the property rule of
`categorize_member`). -/
def pat_has_properties : Reg :=
  rseq [rchar '{', rwss, ralt1 (rstr "get") [rstr "set"]]

/-- `has_methods` pattern:
`^\s*(public|protected|private|internal)\s+[^=;]+\([^)]*\)\s*{` (MULTILINE). -/
def pat_has_methods : Reg :=
  rseq [.bol, rwss,
    ralt1 (rstr "public") [rstr "protected", rstr "private", rstr "internal"],
    rwsp, rplus (rnot ['=', ';']), rchar '(', .star (rnot [')']), rchar ')',
    rwss, rchar '{']

/-- `has_enums` pattern: `^\s*(public|private|protected|internal)\s+enum\s+`
(MULTILINE). -/
def pat_has_enums : Reg :=
  rseq [.bol, rwss,
    ralt1 (rstr "public") [rstr "private", rstr "protected", rstr "internal"],
    rwsp, rstr "enum", rwsp]

/-- `has_constants` pattern:
`^\s*(public|private|protected|internal)\s+const\s+` (MULTILINE). -/
def pat_has_constants : Reg :=
  rseq [.bol, rwss,
    ralt1 (rstr "public") [rstr "private", rstr "protected", rstr "internal"],
    rwsp, rstr "const", rwsp]

/-- The constant rule of `categorize_member`: `const\s+\w+`. -/
def pat_const_decl : Reg :=
  rseq [rstr "const", rwsp, rwordp]

/-- The enum rule of `categorize_member`: `enum\s+\w+`. -/
def pat_enum_decl : Reg :=
  rseq [rstr "enum", rwsp, rwordp]

/-- The first field pattern of `categorize_member`:
`^\s*(private|protected|public|internal)\s+(?:readonly\s+|static\s+)?(?:(?!\s*(override|virtual|abstract)).)*\s+\w+(?:\s*[=;]|\s*$)`
(MULTILINE). -/
def pat_field1 : Reg :=
  rseq [.bol, rwss,
    ralt1 (rstr "private") [rstr "protected", rstr "public", rstr "internal"],
    rwsp,
    ropt (ralt1 (rseq [rstr "readonly", rwsp]) [rseq [rstr "static", rwsp]]),
    .star (rseq [.nla (rseq [rwss,
      ralt1 (rstr "override") [rstr "virtual", rstr "abstract"]]), rdot]),
    rwsp, rwordp,
    ralt1 (rseq [rwss, .cls (fun c => c == '=' || c == ';')])
      [rseq [rwss, .eol]]]

/-- The second field pattern of `categorize_member`:
`^\s*\[Export(?:\([^)]*\))?\]\s*` (MULTILINE). -/
def pat_field2 : Reg :=
  rseq [.bol, rwss, rstr "[Export",
    ropt (rseq [rchar '(', .star (rnot [')']), rchar ')']), rstr "]", rwss]

/-- The field-exclusion pattern of `categorize_member`:
`\(.*\)|{\s*get|{\s*set`. -/
def pat_field_exclusion : Reg :=
  ralt1 (rseq [rchar '(', .star rdot, rchar ')'])
    [rseq [rchar '{', rwss, rstr "get"], rseq [rchar '{', rwss, rstr "set"]]

/-- The method rule of `categorize_member`, brace form: `\(.*\)\s*{`. -/
def pat_method_brace : Reg :=
  rseq [rchar '(', .star rdot, rchar ')', rwss, rchar '{']

/-- The method rule of `categorize_member`, terminator form: `\(.*\)\s*;`. -/
def pat_method_semi : Reg :=
  rseq [rchar '(', .star rdot, rchar ')', rwss, rchar ';']

/-- Visibility sub-classification of `categorize_member`: `^\s*public`
(MULTILINE). -/
def pat_lead_public : Reg :=
  rseq [.bol, rwss, rstr "public"]

/-- `^\s*protected` (MULTILINE). -/
def pat_lead_protected : Reg :=
  rseq [.bol, rwss, rstr "protected"]

/-- `^\s*private` (MULTILINE). -/
def pat_lead_private : Reg :=
  rseq [.bol, rwss, rstr "private"]

/-- `extract_godot_signals` pattern:
`\[Signal\]\s*\n?\s*public\s+delegate\s+[^;]+;` (MULTILINE, DOTALL — both
without effect: no anchor, no dot). -/
def pat_signal_extract : Reg :=
  rseq [rstr "[Signal]", rwss, ropt (rchar '\n'), rwss, rstr "public", rwsp,
    rstr "delegate", rwsp, rplus (rnot [';']), rchar ';']

/-- The primary-constructor type pattern of `extract_class_structure`:
`public\s+(?:(?:partial|abstract|static|readonly)\s+)*(?:class|struct|record)\s+(\w+)\s*\([^)]*\)\s*(?::\s*[^{]+)?\s*{`. -/
def pat_type_primary : Reg :=
  rseq [rstr "public", rwsp, pat_mods,
    ralt1 (rstr "class") [rstr "struct", rstr "record"], rwsp, rwordp, rwss,
    rchar '(', .star (rnot [')']), rchar ')', rwss,
    ropt (rseq [rchar ':', rwss, rplus (rnot ['{'])]), rwss, rchar '{']

/-- The traditional type pattern of `extract_class_structure`:
`public\s+(?:(?:partial|abstract|static|readonly)\s+)*(?:class|struct|record|interface|enum)\s+(\w+)\s*(?::\s*[^{]+)?\s*{`. -/
def pat_type_traditional : Reg :=
  rseq [rstr "public", rwsp, pat_mods,
    ralt1 (rstr "class")
      [rstr "struct", rstr "record", rstr "interface", rstr "enum"],
    rwsp, rwordp, rwss,
    ropt (rseq [rchar ':', rwss, rplus (rnot ['{'])]), rwss, rchar '{']

/-! ## The three cleanup substitutions of `parse_class_members`

`parse_class_members` first erases pre-existing organization markers:

    clean_body = re.sub(r'^\s*//\s*(Fields|Properties|Virtual properties|Constants|Enums|Signals|Public Methods|Protected Methods|Private Methods)\s*$', '', class_body, flags=re.MULTILINE)
    clean_body = re.sub(r'^\s*#region\s+[^\n]*\s*$', '', clean_body, flags=re.MULTILINE)
    clean_body = re.sub(r'^\s*#endregion\s*$', '', clean_body, flags=re.MULTILINE)

These matchers are deterministic transcriptions of Python's greedy match.
For each pattern the backtracking collapses:
leading `^\s*` must equal the maximal whitespace run, because the literal
after it starts with a non-whitespace character; `\s+` may take its
maximal run, because whatever it leaves, the following `[^\n]*` takes the
rest of that line and `\s*$` then succeeds immediately (the scan stands on
a newline or at the end); the final `\s*$` takes the longest whitespace
prefix that ends at a newline or at the end of the input — `trailScan`. -/

/-- Greedy `\s*$` (MULTILINE): consume whitespace and stop at the latest
position inside the run that sits at a newline or at the end of input;
`none` when no such position exists. -/
def trailScan : List Char → Option (List Char)
  | [] => some []
  | c :: t =>
    if pyWs c then
      match trailScan t with
      | some r => some r
      | none => if c == '\n' then some (c :: t) else none
    else none

/-- The match of `^\s*//\s*(Fields|…|Private Methods)\s*$` at the head of
`l` (which the caller guarantees is a line start): the rest after the
match, or `none`.  Alternatives are tried in source order; when one
matches but `\s*$` fails after it, the next alternative is tried, exactly
as the backtracking engine would. -/
def commentAlts : List String :=
  ["Fields", "Properties", "Virtual properties", "Constants", "Enums",
   "Signals", "Public Methods", "Protected Methods", "Private Methods"]

/-- Try the comment-section alternatives in order at `l2`. -/
def commentAltScan : List String → List Char → Option (List Char)
  | [], _ => none
  | a :: rest, l2 =>
    match (if a.data.isPrefixOf l2 then trailScan (l2.drop a.data.length)
           else none) with
    | some r => some r
    | none => commentAltScan rest l2

/-- The whole `^\s*//\s*(…)\s*$` matcher. -/
def commentLineMatch (l : List Char) : Option (List Char) :=
  let l1 := l.dropWhile pyWs
  if "//".data.isPrefixOf l1 then
    commentAltScan commentAlts ((l1.drop 2).dropWhile pyWs)
  else none

/-- The `^\s*#region\s+[^\n]*\s*$` matcher.  After `#region` the pattern
needs at least one whitespace character; `[^\n]*` then runs to the end of
the line the maximal `\s+` run stopped in, and `trailScan` finds the
greedy end. -/
def regionLineMatch (l : List Char) : Option (List Char) :=
  let l1 := l.dropWhile pyWs
  if "#region".data.isPrefixOf l1 then
    let l2 := l1.drop 7
    if (l2.takeWhile pyWs).isEmpty then none
    else trailScan ((l2.dropWhile pyWs).dropWhile (fun c => c != '\n'))
  else none

/-- The `^\s*#endregion\s*$` matcher. -/
def endregionLineMatch (l : List Char) : Option (List Char) :=
  let l1 := l.dropWhile pyWs
  if "#endregion".data.isPrefixOf l1 then trailScan (l1.drop 10)
  else none

/-- Whether the span a matcher consumed out of `l` (everything before
`rest`) ended with a newline: then the new scan position is again a line
start. -/
def consumedEndsNl (l rest : List Char) : Bool :=
  (l.take (l.length - rest.length)).getLast? == some '\n'

/-- `re.sub(pattern, '', text)` for a line-anchored pattern: walk the text;
at every line start try the matcher and drop its span, elsewhere copy the
current line verbatim (the `^` anchor rules out matches starting mid-line).
`atLS` says whether the scan stands at a line start.  Fuel `length + 1`
suffices: every step consumes at least one character. -/
def subGo (mf : List Char → Option (List Char)) :
    Nat → Bool → List Char → List Char
  | 0, _, l => l
  | _ + 1, _, [] => []
  | fuel + 1, atLS, c :: t =>
    match (if atLS then mf (c :: t) else none) with
    | some rest => subGo mf fuel (consumedEndsNl (c :: t) rest) rest
    | none =>
      let ln := (c :: t).takeWhile (fun d => d != '\n')
      match (c :: t).dropWhile (fun d => d != '\n') with
      | [] => ln
      | _ :: t2 => ln ++ '\n' :: subGo mf fuel true t2

/-- Run one cleanup substitution over a whole text. -/
def runSub (mf : List Char → Option (List Char)) (l : List Char) :
    List Char :=
  subGo mf (l.length + 1) true l

/-- The `clean_body` of `parse_class_members`: the three substitutions in
source order. -/
def cleanBodyL (l : List Char) : List Char :=
  runSub endregionLineMatch (runSub regionLineMatch (runSub commentLineMatch l))

/-- The `clean_body` of `parse_class_members`, on strings. -/
def cleanBody (class_body : String) : String :=
  String.mk (cleanBodyL class_body.data)

/-! ## The organizer, function by function -/

/-- The nine member categories of the tool (the keys of the `members`
dictionary). -/
inductive Category where
  | fields
  | properties
  | virtual_properties
  | constants
  | enums
  | signals
  | public_methods
  | protected_methods
  | private_methods
deriving DecidableEq

/-- The `members` dictionary: one ordered list of member texts per
category. -/
structure Members where
  fields : List String := []
  properties : List String := []
  virtual_properties : List String := []
  constants : List String := []
  enums : List String := []
  signals : List String := []
  public_methods : List String := []
  protected_methods : List String := []
  private_methods : List String := []
deriving DecidableEq

/-- Look a category's list up. -/
def Members.get (m : Members) : Category → List String
  | .fields => m.fields
  | .properties => m.properties
  | .virtual_properties => m.virtual_properties
  | .constants => m.constants
  | .enums => m.enums
  | .signals => m.signals
  | .public_methods => m.public_methods
  | .protected_methods => m.protected_methods
  | .private_methods => m.private_methods

/-- `members[category].append(text)`. -/
def Members.add (m : Members) : Category → String → Members
  | .fields, s => { m with fields := m.fields ++ [s] }
  | .properties, s => { m with properties := m.properties ++ [s] }
  | .virtual_properties, s =>
    { m with virtual_properties := m.virtual_properties ++ [s] }
  | .constants, s => { m with constants := m.constants ++ [s] }
  | .enums, s => { m with enums := m.enums ++ [s] }
  | .signals, s => { m with signals := m.signals ++ [s] }
  | .public_methods, s => { m with public_methods := m.public_methods ++ [s] }
  | .protected_methods, s =>
    { m with protected_methods := m.protected_methods ++ [s] }
  | .private_methods, s =>
    { m with private_methods := m.private_methods ++ [s] }

/-- `is_already_organized`, the marker count: how many of the twelve
organization patterns `re.search` finds in the content. -/
def found_sections (content : String) : Nat :=
  (organization_patterns.filter (fun r => reTest r content.data)).length

/-- `is_already_organized`, the content probes, in source order.  The sum
`organizable_content_types` counts the seven booleans
`has_fields, has_properties, has_methods, has_exports, has_signals,
has_enums, has_constants`. -/
def has_fields (content : String) : Bool :=
  reTest pat_has_fields content.data

/-- `has_properties = bool(re.search(r'{\s*(get|set)', content, re.MULTILINE))`. -/
def has_properties (content : String) : Bool :=
  reTest pat_has_properties content.data

/-- `has_methods` probe. -/
def has_methods (content : String) : Bool :=
  reTest pat_has_methods content.data

/-- `has_exports = bool(re.search(r'\[Export\]', content))`. -/
def has_exports (content : String) : Bool :=
  reTest (rstr "[Export]") content.data

/-- `has_signals = bool(re.search(r'\[Signal\]', content))`. -/
def has_signals (content : String) : Bool :=
  reTest (rstr "[Signal]") content.data

/-- `has_enums` probe. -/
def has_enums (content : String) : Bool :=
  reTest pat_has_enums content.data

/-- `has_constants` probe. -/
def has_constants (content : String) : Bool :=
  reTest pat_has_constants content.data

/-- `organizable_content_types = sum([has_fields, has_properties,
has_methods, has_exports, has_signals, has_enums, has_constants])`. -/
def organizable_content_types (content : String) : Nat :=
  (if has_fields content then 1 else 0) +
  (if has_properties content then 1 else 0) +
  (if has_methods content then 1 else 0) +
  (if has_exports content then 1 else 0) +
  (if has_signals content then 1 else 0) +
  (if has_enums content then 1 else 0) +
  (if has_constants content then 1 else 0)

/-- `is_already_organized(content)`: for at most one content type one found
section suffices, otherwise two are required. -/
def is_already_organized (content : String) : Bool :=
  if organizable_content_types content ≤ 1 then
    decide (1 ≤ found_sections content)
  else
    decide (2 ≤ found_sections content)

/-- `extract_godot_signals(content)`: every match of the signal pattern,
stripped, whitespace runs collapsed to single spaces, then
`'[Signal] '` replaced by `'[Signal]\n    '`. -/
def extract_godot_signals (content : String) : List String :=
  (reFindTexts pat_signal_extract content.data).map (fun t =>
    let t1 := pyStripL t
    let t2 := collapseWs t1
    let t3 := replaceAll "[Signal] ".data "[Signal]\n    ".data
      (t2.length + 1) t2
    String.mk t3)

/-- The signal count of `validate_organized_content`. -/
def count_signals (s : String) : Nat :=
  reCount pat_signals s.data

/-- The export count of `validate_organized_content`. -/
def count_exports (s : String) : Nat :=
  reCount pat_exports s.data

/-- The type-declaration count of `validate_organized_content`. -/
def count_types (s : String) : Nat :=
  reCount pat_type_count s.data

/-- The method count of `validate_organized_content`. -/
def count_methods (s : String) : Nat :=
  reCount pat_method_count s.data

/-- `validate_organized_content(original, organized)`: reject on a signal,
export or type-declaration count change, or a method count changing by
more than one; accept otherwise. -/
def validate_organized_content (original organized : String) : Bool :=
  if count_signals original ≠ count_signals organized then false
  else if count_exports original ≠ count_exports organized then false
  else if count_types original ≠ count_types organized then false
  else if 1 < ((count_methods original : Int) - count_methods organized).natAbs
    then false
  else true

/-- The class information `extract_class_structure` returns.  The source
also stores the type's name, the `using` statements and the namespace, but
no later step of the tool reads them; `class_start` (the index of the
type's opening brace, `match.end() - 1`) is the only field
`reorganize_class_content` consumes. -/
structure ClassInfo where
  class_start : Nat
deriving DecidableEq

/-- `extract_class_structure(content)`: search the primary-constructor
pattern first, then the traditional one; `None` when neither matches. -/
def extract_class_structure (content : String) : Option ClassInfo :=
  let l := content.data
  match reSearchFrom (l.length + 1) pat_type_primary none l with
  | some (_, rest) => some ⟨l.length - rest.length - 1⟩
  | none =>
    match reSearchFrom (l.length + 1) pat_type_traditional none l with
    | some (_, rest) => some ⟨l.length - rest.length - 1⟩
    | none => none

/-- The brace scan of `reorganize_class_content`: starting just after the
type's opening brace with depth 1, the number of characters consumed until
the depth returns to zero (the closing brace included), or the whole rest
when the braces never balance — the source's
`while pos < len(content) and brace_count > 0`. -/
def braceScan : Int → List Char → Nat
  | _, [] => 0
  | bc, c :: t =>
    let bc2 : Int := if c == '{' then bc + 1 else if c == '}' then bc - 1 else bc
    if bc2 == 0 then 1 else 1 + braceScan bc2 t

/-- `re.match(r'^(private|protected|public|internal|\[)', stripped)` of
`split_into_blocks`. -/
def startsMemberL (stripped : List Char) : Bool :=
  "private".data.isPrefixOf stripped || "protected".data.isPrefixOf stripped ||
  "public".data.isPrefixOf stripped || "internal".data.isPrefixOf stripped ||
  "[".data.isPrefixOf stripped

/-- `stripped.endswith((';', '}'))` of `split_into_blocks`. -/
def endsSemiOrBrace (stripped : List Char) : Bool :=
  stripped.getLast? == some ';' || stripped.getLast? == some '}'

/-- The loop of `split_into_blocks` over the lines: `pending` is
`current_block`, `depth` the running brace depth, `inm` the `in_member`
flag.  A new member starts at a line whose stripped text opens with a
visibility keyword or `[` while the depth (updated by this line first) is
zero and no member is open; the block closes when the depth is zero again
and the stripped line ends in `;` or `}`; leftover lines flush at the
end. -/
def blocksAux :
    List (List Char) → Int → Bool → List (List Char) → List (List (List Char))
  | pending, _, _, [] => if pending.isEmpty then [] else [pending]
  | pending, depth, inm, line :: rest =>
    let stripped := pyStripL line
    let depth2 : Int := depth + (line.count '{' : Int) - (line.count '}' : Int)
    let isStart := startsMemberL stripped && depth2 == 0 && !inm
    let flushed := if isStart && !pending.isEmpty then [pending] else []
    let pending2 := (if isStart then [] else pending) ++ [line]
    let inm2 := if isStart then true else inm
    if inm2 && depth2 == 0 && endsSemiOrBrace stripped then
      flushed ++ pending2 :: blocksAux [] depth2 false rest
    else
      flushed ++ blocksAux pending2 depth2 inm2 rest

/-- `split_into_blocks(content)`: the blocks, each the newline-join of its
lines. -/
def split_into_blocks (content : String) : List String :=
  (blocksAux [] 0 false (splitNl content.data)).map (fun bl =>
    String.mk (joinNl bl))

/-- `categorize_member(member_text)`: the ordered first-match-wins rules of
the source, applied to the stripped text. -/
def categorize_member (member_text : String) : Option Category :=
  let sd := (pyStrip member_text).data
  if containsSub "[Signal]".data sd then some .signals
  else if reTest pat_const_decl sd then some .constants
  else if reTest pat_enum_decl sd then some .enums
  else if reTest pat_field1 sd && !reTest pat_field_exclusion sd then
    some .fields
  else if reTest pat_field2 sd && !reTest pat_field_exclusion sd then
    some .fields
  else if reTest pat_has_properties sd then
    if containsSub "virtual".data sd || containsSub "override".data sd then
      some .virtual_properties
    else some .properties
  else if reTest pat_method_brace sd || reTest pat_method_semi sd then
    if reTest pat_lead_public sd then some .public_methods
    else if reTest pat_lead_protected sd then some .protected_methods
    else if reTest pat_lead_private sd then some .private_methods
    else none
  else none

/-- `parse_class_members(class_body)`: clean the markers away, split into
blocks, then append every nonblank categorized block's stripped text to
its category (a block categorizing to `None` is dropped; the source's
`category in members` test always holds for a returned category). -/
def parse_class_members (class_body : String) : Members :=
  let blocks := split_into_blocks (cleanBody class_body)
  blocks.foldl (fun ms b =>
    if (pyStrip b).data.isEmpty then ms
    else
      match categorize_member b with
      | some c => ms.add c (pyStrip b)
      | none => ms) {}

/-- The member indentation of the section builders, `f'    {member}'`. -/
def indentMember (member : String) : String :=
  "    " ++ member

/-- `build_organized_class_body_with_regions(members)`: the nine sections
in fixed order, each nonempty one as its `#region` marker, its members
indented, `#endregion`, and a blank separator line — the last section
(private methods) without the separator; all joined by newlines between a
leading and a trailing newline. -/
def build_organized_class_body_with_regions (m : Members) : String :=
  let sections : List String :=
    (if m.fields.isEmpty then [] else
      ["    #region Fields"] ++ m.fields.map indentMember ++
        ["    #endregion", ""]) ++
    (if m.properties.isEmpty then [] else
      ["    #region Properties"] ++ m.properties.map indentMember ++
        ["    #endregion", ""]) ++
    (if m.virtual_properties.isEmpty then [] else
      ["    #region Virtual Properties"] ++
        m.virtual_properties.map indentMember ++ ["    #endregion", ""]) ++
    (if m.constants.isEmpty then [] else
      ["    #region Constants"] ++ m.constants.map indentMember ++
        ["    #endregion", ""]) ++
    (if m.enums.isEmpty then [] else
      ["    #region Enums"] ++ m.enums.map indentMember ++
        ["    #endregion", ""]) ++
    (if m.signals.isEmpty then [] else
      ["    #region Signals"] ++ m.signals.map indentMember ++
        ["    #endregion", ""]) ++
    (if m.public_methods.isEmpty then [] else
      ["    #region Public Methods"] ++ m.public_methods.map indentMember ++
        ["    #endregion", ""]) ++
    (if m.protected_methods.isEmpty then [] else
      ["    #region Protected Methods"] ++
        m.protected_methods.map indentMember ++ ["    #endregion", ""]) ++
    (if m.private_methods.isEmpty then [] else
      ["    #region Private Methods"] ++
        m.private_methods.map indentMember ++ ["    #endregion"])
  "\n" ++ String.intercalate "\n" sections ++ "\n"

/-- `build_organized_class_body_with_comments(members)`: as the region
builder, with `// <name>` markers and no end marker. -/
def build_organized_class_body_with_comments (m : Members) : String :=
  let sections : List String :=
    (if m.fields.isEmpty then [] else
      ["    // Fields"] ++ m.fields.map indentMember ++ [""]) ++
    (if m.properties.isEmpty then [] else
      ["    // Properties"] ++ m.properties.map indentMember ++ [""]) ++
    (if m.virtual_properties.isEmpty then [] else
      ["    // Virtual Properties"] ++
        m.virtual_properties.map indentMember ++ [""]) ++
    (if m.constants.isEmpty then [] else
      ["    // Constants"] ++ m.constants.map indentMember ++ [""]) ++
    (if m.enums.isEmpty then [] else
      ["    // Enums"] ++ m.enums.map indentMember ++ [""]) ++
    (if m.signals.isEmpty then [] else
      ["    // Signals"] ++ m.signals.map indentMember ++ [""]) ++
    (if m.public_methods.isEmpty then [] else
      ["    // Public Methods"] ++ m.public_methods.map indentMember ++ [""]) ++
    (if m.protected_methods.isEmpty then [] else
      ["    // Protected Methods"] ++
        m.protected_methods.map indentMember ++ [""]) ++
    (if m.private_methods.isEmpty then [] else
      ["    // Private Methods"] ++ m.private_methods.map indentMember)
  "\n" ++ String.intercalate "\n" sections ++ "\n"

/-- `build_organized_class_body(members)`: the style choice
(`self.use_regions`, immutable run configuration) threaded as an explicit
argument. -/
def build_organized_class_body (use_regions : Bool) (m : Members) : String :=
  if use_regions then build_organized_class_body_with_regions m
  else build_organized_class_body_with_comments m

/-- `reorganize_class_content(class_info, original_content, godot_signals)`:
split the text at the type's braces, parse the body's members, replace the
parsed signals by the separately extracted ones when any were found, build
the organized body and reassemble. -/
def reorganize_class_content (use_regions : Bool) (class_info : ClassInfo)
    (original_content : String) (godot_signals : List String) : String :=
  let data := original_content.data
  let cs := class_info.class_start
  let pre_class := data.take (cs + 1)
  let consumed := braceScan 1 (data.drop (cs + 1))
  let class_body := (data.drop (cs + 1)).take (consumed - 1)
  let post_class := data.drop (cs + 1 + consumed - 1)
  let members := parse_class_members (String.mk class_body)
  let members2 :=
    if godot_signals.isEmpty then members
    else { members with signals := godot_signals }
  let organized_body := build_organized_class_body use_regions members2
  String.mk (pre_class ++ organized_body.data ++ post_class)

/-- What one `organize_file` call did: the returned boolean, whether the
backup collaborator ran, whether the file was written, and the file's
content on disk afterwards. -/
structure OrganizeOutcome where
  success : Bool
  backup_created : Bool
  wrote : Bool
  disk : String
deriving DecidableEq

/-- `organize_file`: skip (per `should_skip_file`, an external eligibility
collaborator whose verdict is the `skip` argument), else return early on an
already organized file, else back up, extract the signals, locate the type
declaration (failure returns without writing), rewrite, validate, and only
then write the candidate over the file in one whole-file write. -/
def organize_file (use_regions skip : Bool) (content : String) :
    OrganizeOutcome :=
  if skip then ⟨true, false, false, content⟩
  else if is_already_organized content then ⟨true, false, false, content⟩
  else
    let godot_signals := extract_godot_signals content
    match extract_class_structure content with
    | none => ⟨false, true, false, content⟩
    | some ci =>
      let organized :=
        reorganize_class_content use_regions ci content godot_signals
      if validate_organized_content content organized then
        ⟨true, true, true, organized⟩
      else ⟨false, true, false, content⟩

/-! ## Claim-side definitions -/

/-- First-match-wins evaluation of an ordered rule list over a stripped
member text (the Member Classifier contract of the specification). -/
def firstMatch : List ((List Char → Bool) × Category) → List Char →
    Option Category
  | [], _ => none
  | (p, c) :: rest, sd => if p sd then some c else firstMatch rest sd

/-- The classifier's ordered rules as the claim states them: signal marker,
named constant, named enumeration, field pattern without parameter list or
accessor block, accessor block (virtual/override first), then
parameter-list-plus-body-or-terminator by visibility. -/
def memberRules : List ((List Char → Bool) × Category) :=
  [(fun sd => containsSub "[Signal]".data sd, .signals),
   (fun sd => reTest pat_const_decl sd, .constants),
   (fun sd => reTest pat_enum_decl sd, .enums),
   (fun sd => (reTest pat_field1 sd || reTest pat_field2 sd) &&
      !reTest pat_field_exclusion sd, .fields),
   (fun sd => reTest pat_has_properties sd &&
      (containsSub "virtual".data sd || containsSub "override".data sd),
    .virtual_properties),
   (fun sd => reTest pat_has_properties sd, .properties),
   (fun sd => (reTest pat_method_brace sd || reTest pat_method_semi sd) &&
      reTest pat_lead_public sd, .public_methods),
   (fun sd => (reTest pat_method_brace sd || reTest pat_method_semi sd) &&
      reTest pat_lead_protected sd, .protected_methods),
   (fun sd => (reTest pat_method_brace sd || reTest pat_method_semi sd) &&
      reTest pat_lead_private sd, .private_methods)]

/-- The fixed emission order of the Section Builder. -/
def categoryOrder : List Category :=
  [.fields, .properties, .virtual_properties, .constants, .enums, .signals,
   .public_methods, .protected_methods, .private_methods]

/-- The canonical section marker of a category in each style. -/
def sectionMarker (use_regions : Bool) : Category → String
  | .fields =>
    if use_regions then "    #region Fields" else "    // Fields"
  | .properties =>
    if use_regions then "    #region Properties" else "    // Properties"
  | .virtual_properties =>
    if use_regions then "    #region Virtual Properties"
    else "    // Virtual Properties"
  | .constants =>
    if use_regions then "    #region Constants" else "    // Constants"
  | .enums =>
    if use_regions then "    #region Enums" else "    // Enums"
  | .signals =>
    if use_regions then "    #region Signals" else "    // Signals"
  | .public_methods =>
    if use_regions then "    #region Public Methods"
    else "    // Public Methods"
  | .protected_methods =>
    if use_regions then "    #region Protected Methods"
    else "    // Protected Methods"
  | .private_methods =>
    if use_regions then "    #region Private Methods"
    else "    // Private Methods"

/-- The lines one category contributes to the built body: nothing when it
is empty, else its marker, its members indented, the end marker in region
style, and a blank separator line after every category but the last
(private methods). -/
def sectionLines (use_regions : Bool) (c : Category) (ms : List String) :
    List String :=
  if ms.isEmpty then []
  else
    [sectionMarker use_regions c] ++ ms.map indentMember ++
      (if use_regions then ["    #endregion"] else []) ++
      (if c = .private_methods then [] else [""])

/-- The content-type count exactly as claim C7 words it: fields,
properties, methods, signals, constants, enums — without the export probe
the code also counts. -/
def claim_content_types (content : String) : Nat :=
  (if has_fields content then 1 else 0) +
  (if has_properties content then 1 else 0) +
  (if has_methods content then 1 else 0) +
  (if has_signals content then 1 else 0) +
  (if has_enums content then 1 else 0) +
  (if has_constants content then 1 else 0)

/-- The idempotency verdict claim C7 describes: threshold one for at most
one of the six content types, two otherwise. -/
def claim_already_organized (content : String) : Bool :=
  if claim_content_types content ≤ 1 then decide (1 ≤ found_sections content)
  else decide (2 ≤ found_sections content)

/-- The marker threshold the code actually applies, over its seven-type
count (the six of the claim plus the export probe). -/
def organizable_threshold (content : String) : Nat :=
  if organizable_content_types content ≤ 1 then 1 else 2

/-- The candidate rewritten text `organize_file` computes in memory before
validating: the reorganized content when a type declaration is found. -/
def candidate_rewrite (use_regions : Bool) (content : String) :
    Option String :=
  (extract_class_structure content).map (fun ci =>
    reorganize_class_content use_regions ci content
      (extract_godot_signals content))

/-- Rejoin a block list with newlines between blocks: the concatenation
claim C3 speaks about. -/
def joinBlocks (bs : List String) : String :=
  String.mk (List.intercalate ['\n'] (bs.map String.data))

/-- A line consisting of optional whitespace, `#region` and then at least
one whitespace character (so in particular every named `#region` marker
line). -/
def regionWsLine (ln : List Char) : Bool :=
  let t := ln.dropWhile pyWs
  "#region".data.isPrefixOf t &&
    (match (t.drop 7).head? with
     | some c => pyWs c
     | none => false)

/-- A line consisting of optional whitespace and `#endregion` with only
whitespace after it. -/
def endregionLine (ln : List Char) : Bool :=
  let t := ln.dropWhile pyWs
  "#endregion".data.isPrefixOf t && (t.drop 10).all pyWs

/-- A canonical `//` section-comment line: whitespace, `//`, whitespace,
one of the section names, trailing whitespace only. -/
def sectionCommentLine (ln : List Char) : Bool :=
  let t := ln.dropWhile pyWs
  "//".data.isPrefixOf t &&
    (let u := (t.drop 2).dropWhile pyWs
     commentAlts.any (fun a =>
       a.data.isPrefixOf u && (u.drop a.data.length).all pyWs))

/-! ## Concrete inputs for counterexamples and witnesses -/

/-- A file with one `// Fields` marker whose only organizable content is an
export-decorated field: one content type by the claim's six-type count, two
by the code's seven. -/
def exC7 : String :=
  "    // Fields\n[Export]\nprivate int x = 1;\n"

/-- An already organized file: one marker, one content type. -/
def exC9 : String :=
  "    // Fields\npublic class C \x7b\n    private int x;\n\x7d\n"

/-- A class with two method blocks (separated by a field with `=`, which
bounds the greedy method pattern) — the method pattern counts 2. -/
def exO8 : String :=
  "public class C \x7b\n    public void A() \x7b \x7d\n    int q = 0;\n    private void B() \x7b \x7d\n\x7d\n"

/-- `exO8` with exactly the method block `B` deleted: method count 1. -/
def exG8 : String :=
  "public class C \x7b\n    public void A() \x7b \x7d\n    int q = 0;\n\x7d\n"

/-- `exO8` with both method blocks deleted: method count 0. -/
def exG8two : String :=
  "public class C \x7b\n    int q = 0;\n\x7d\n"

/-- A class whose signal is declared on a single line. -/
def exC6 : String :=
  "public class C \x7b\n    [Signal] public delegate void DiedEventHandler();\n    public void Foo()\n    \x7b\n    \x7d\n\x7d\n"

/-- A class body in which `#region` is immediately followed by the method's
closing brace: the region substitution requires whitespace after
`#region`, so the marker survives into the method's block. -/
def exC10 : String :=
  "public void Foo() \x7b\n#region\x7d"

/-- A simple class content that flows through the whole pipeline and is
written back. -/
def exC1 : String :=
  "public class C \x7b\n    private int x;\n    public void Foo()\n    \x7b\n    \x7d\n\x7d\n"

/-! ## Theorems -/

/-- Claim C2: `validate_organized_content(original, organized)` returns
True exactly when the signal counts, the export counts and the top-level
type-declaration counts agree and the method-like counts differ by at most
one. -/
theorem validate_organized_content_iff_counts (o g : String) :
    validate_organized_content o g =
      (decide (count_signals o = count_signals g) &&
       decide (count_exports o = count_exports g) &&
       decide (count_types o = count_types g) &&
       decide (((count_methods o : Int) - count_methods g).natAbs ≤ 1)) := by
  unfold validate_organized_content
  by_cases h1 : count_signals o = count_signals g <;>
    by_cases h2 : count_exports o = count_exports g <;>
      by_cases h3 : count_types o = count_types g <;>
        by_cases h4 :
          1 < ((count_methods o : Int) - count_methods g).natAbs <;>
          simp [h1, h2, h3, h4, Nat.lt_iff_add_one_le] <;> omega

/-- Claim C8 counterexample: deleting exactly one method block from `exO8`
(block `B`, all other content unchanged) leaves the candidate accepted by
the Validation Guard — the method tolerance is one, so the corrupted
candidate is not rejected. -/
theorem validate_accepts_one_deleted_method :
    validate_organized_content exO8 exG8 = true ∧
    count_methods exO8 = 2 ∧ count_methods exG8 = 1 ∧
    count_signals exO8 = count_signals exG8 ∧
    count_exports exO8 = count_exports exG8 ∧
    count_types exO8 = count_types exG8 := by
  refine ⟨?_, ?_, ?_, ?_, ?_, ?_⟩ <;> rfl

/-- Claim C8, amended: a corrupted candidate missing two or more method
blocks (other validated counts unchanged) is rejected by
`validate_organized_content`. -/
theorem validate_rejects_two_deleted_methods (o g : String)
    (h1 : count_signals o = count_signals g)
    (h2 : count_exports o = count_exports g)
    (h3 : count_types o = count_types g)
    (h4 : count_methods g + 2 ≤ count_methods o) :
    validate_organized_content o g = false := by
  unfold validate_organized_content
  simp only [h1, h2, h3, ne_eq, not_true_eq_false, if_false]
  have h5 : 1 < ((count_methods o : Int) - count_methods g).natAbs := by omega
  simp [h5]

/-- The rejection theorem at a concrete pair: `exG8two` deletes both
method blocks of `exO8`. -/
theorem validate_rejects_two_deleted_methods_witness :
    validate_organized_content exO8 exG8two = false :=
  validate_rejects_two_deleted_methods exO8 exG8two (by rfl) (by rfl)
    (by rfl) (by decide)

/-- Claim C7 counterexample: on `exC7` the claim's six-type rule (one
content type — fields — so one marker suffices) says organized, but
`is_already_organized` also counts the export probe, sees two content
types, demands two markers and answers false. -/
theorem already_organized_six_types_counterexample :
    claim_already_organized exC7 = true ∧
    is_already_organized exC7 = false ∧
    found_sections exC7 = 1 ∧
    claim_content_types exC7 = 1 ∧
    organizable_content_types exC7 = 2 := by
  refine ⟨?_, ?_, ?_, ?_, ?_⟩ <;> rfl

/-- Claim C7, amended: `is_already_organized` returns True exactly when the
found marker count reaches the threshold determined by the code's seven
content-type probes — fields, properties, methods, exports, signals,
enums, constants: one marker for at most one type present, two
otherwise. -/
theorem already_organized_iff_threshold (c : String) :
    is_already_organized c =
      decide (organizable_threshold c ≤ found_sections c) := by
  unfold is_already_organized organizable_threshold
  by_cases h : organizable_content_types c ≤ 1 <;> simp [h]

/-- Claim C9: a file judged already organized makes `organize_file` return
success with no backup created and no write performed — the backup and
write steps run only after the already-organized check fails. -/
theorem organize_file_skips_already_organized (ur sk : Bool) (c : String)
    (h : is_already_organized c = true) :
    (organize_file ur sk c).success = true ∧
    (organize_file ur sk c).backup_created = false ∧
    (organize_file ur sk c).wrote = false := by
  unfold organize_file
  cases sk <;> simp [h]

/-- The skip theorem at a concrete already organized file. -/
theorem organize_file_skips_already_organized_witness :
    (organize_file false false exC9).success = true ∧
    (organize_file false false exC9).backup_created = false ∧
    (organize_file false false exC9).wrote = false :=
  organize_file_skips_already_organized false false exC9 (by rfl)

/-- Claim C1: the disk content changes only through the single whole-file
write of the in-memory candidate, and only when that candidate passed
every Validation Guard check; when no write happens (skip,
already organized, no locatable type declaration, or validation failure)
the content is unchanged.  In particular a validation failure or a
`None` from `extract_class_structure` leaves the file byte-for-byte
intact, since the right disjunct forces a successful validation and a
located declaration. -/
theorem organize_file_write_gated (ur sk : Bool) (c : String) :
    ((organize_file ur sk c).wrote = false ∧
      (organize_file ur sk c).disk = c) ∨
    ((organize_file ur sk c).wrote = true ∧
      validate_organized_content c (organize_file ur sk c).disk = true ∧
      candidate_rewrite ur c = some (organize_file ur sk c).disk) := by
  unfold organize_file candidate_rewrite
  cases sk with
  | true => exact Or.inl ⟨rfl, rfl⟩
  | false =>
    by_cases ho : is_already_organized c
    · simp [ho]
    · simp only [ho, Bool.false_eq_true, if_false, if_true]
      cases hcs : extract_class_structure c with
      | none => simp
      | some ci =>
        by_cases hv : validate_organized_content c
            (reorganize_class_content ur ci c (extract_godot_signals c))
        · simp [hv]
        · simp [hv]

/-- Claim C5: in both marker styles the built class body is exactly the
fixed-order concatenation of the per-category sections; an empty category
contributes no lines at all, and a non-empty one opens with its canonical
section marker. -/
theorem build_body_sections (ur : Bool) (m : Members) (c : Category) :
    build_organized_class_body ur m =
      "\n" ++ String.intercalate "\n"
        ((categoryOrder.map (fun c2 => sectionLines ur c2 (m.get c2))).flatten)
        ++ "\n" ∧
    sectionLines ur c [] = [] ∧
    (sectionLines ur c (m.get c)).head? =
      (if (m.get c).isEmpty then none else some (sectionMarker ur c)) := by
  refine ⟨?_, ?_, ?_⟩
  · cases ur <;>
      simp only [build_organized_class_body,
        build_organized_class_body_with_regions,
        build_organized_class_body_with_comments, categoryOrder, sectionLines,
        sectionMarker, Members.get, List.map_cons, List.map_nil, List.flatten,
        Bool.false_eq_true, if_false, if_true, ite_true, ite_false] <;>
      congr 2 <;>
      simp [List.append_assoc, apply_ite (fun l => l ++ ([] : List String))]
  · simp [sectionLines]
  · cases h : m.get c with
    | nil => simp [sectionLines]
    | cons a t => simp [sectionLines]

set_option maxHeartbeats 1000000 in
/-- Claim C4: `categorize_member` is exactly the first-match-wins
evaluation of the ordered rule list — signal marker, named constant, named
enumeration, field pattern without parameter list or accessor block,
accessor block split on virtual/override, then parameter list with body or
terminator classified by its leading visibility keyword — and any
remaining block is unclassified (`none`). -/
theorem categorize_member_first_match (s : String) :
    categorize_member s = firstMatch memberRules (pyStrip s).data := by
  unfold categorize_member firstMatch memberRules
  simp only [firstMatch]
  cases h1 : reTest pat_field1 (pyStrip s).data <;>
    cases h2 : reTest pat_field2 (pyStrip s).data <;>
      cases h3 : reTest pat_field_exclusion (pyStrip s).data <;>
        cases h4 : reTest pat_has_properties (pyStrip s).data <;>
          cases h5 : reTest pat_method_brace (pyStrip s).data <;>
            cases h6 : reTest pat_method_semi (pyStrip s).data <;>
              cases h7 : reTest pat_lead_public (pyStrip s).data <;>
                cases h8 : reTest pat_lead_protected (pyStrip s).data <;>
                  simp

/-! ### Lines, joins and the block splitter -/

theorem splitNl_ne_nil (l : List Char) : splitNl l ≠ [] := by
  induction l with
  | nil => simp [splitNl]
  | cons c t ih =>
    unfold splitNl
    by_cases h : c == '\n'
    · simp [h]
    · simp only [h, Bool.false_eq_true, if_false]
      cases hs : splitNl t with
      | nil => exact absurd hs ih
      | cons a r => simp

theorem joinNl_splitNl (l : List Char) : joinNl (splitNl l) = l := by
  induction l with
  | nil => simp [splitNl, joinNl, List.intercalate]
  | cons c t ih =>
    unfold splitNl
    by_cases h : c == '\n'
    · have hc : c = '\n' := by simpa using h
      subst hc
      simp only [h, if_true]
      rw [joinNl, List.intercalate] at ih ⊢
      cases hs : splitNl t with
      | nil => exact absurd hs (splitNl_ne_nil t)
      | cons a r =>
        rw [hs] at ih
        simp [List.intersperse] at ih ⊢
        simpa using ih
    · simp only [h, Bool.false_eq_true, if_false]
      cases hs : splitNl t with
      | nil => exact absurd hs (splitNl_ne_nil t)
      | cons a r =>
        rw [hs] at ih
        rw [joinNl, List.intercalate] at ih ⊢
        cases r with
        | nil => simpa using ih
        | cons b r2 =>
          simp [List.intersperse] at ih ⊢
          simpa using ih

theorem mem_splitNl_no_nl (l : List Char) :
    ∀ ln ∈ splitNl l, '\n' ∉ ln := by
  induction l with
  | nil => simp [splitNl]
  | cons c t ih =>
    unfold splitNl
    by_cases h : c == '\n'
    · simp only [h, if_true]
      intro ln hln
      rcases List.mem_cons.mp hln with h1 | h1
      · simp [h1]
      · exact ih ln h1
    · simp only [h, Bool.false_eq_true, if_false]
      cases hs : splitNl t with
      | nil => exact absurd hs (splitNl_ne_nil t)
      | cons a r =>
        intro ln hln
        rcases List.mem_cons.mp hln with h1 | h1
        · subst h1
          intro hcon
          rcases List.mem_cons.mp hcon with h2 | h2
          · exact absurd (beq_iff_eq.mpr h2.symm) (by simpa using h)
          · exact ih a (hs ▸ List.mem_cons_self a r) h2
        · exact ih ln (hs ▸ List.mem_cons_of_mem a h1)

theorem splitNl_append_nl (a b : List Char) :
    splitNl (a ++ '\n' :: b) = splitNl a ++ splitNl b := by
  induction a with
  | nil => simp [splitNl]
  | cons c t ih =>
    simp only [List.cons_append, splitNl]
    by_cases h : c == '\n'
    · simp only [h, if_true, List.append_eq, List.cons_append]
      rw [ih]
    · simp only [h, Bool.false_eq_true, if_false, List.append_eq]
      cases hs : splitNl t with
      | nil => exact absurd hs (splitNl_ne_nil t)
      | cons x r =>
        rw [ih, hs]
        simp

theorem splitNl_of_no_nl (l : List Char) (h : '\n' ∉ l) : splitNl l = [l] := by
  induction l with
  | nil => simp [splitNl]
  | cons c t ih =>
    unfold splitNl
    have hc : ¬ (c == '\n') := by
      simp only [beq_iff_eq]
      intro he
      exact h (he ▸ List.mem_cons_self c t)
    simp only [hc, Bool.false_eq_true, if_false]
    rw [ih (fun hm => h (List.mem_cons_of_mem c hm))]

theorem splitNl_joinNl (b : List (List Char)) (hne : b ≠ [])
    (hnl : ∀ ln ∈ b, '\n' ∉ ln) : splitNl (joinNl b) = b := by
  induction b with
  | nil => exact absurd rfl hne
  | cons x r ih =>
    cases r with
    | nil =>
      simp [joinNl, List.intercalate]
      exact splitNl_of_no_nl x (hnl x (List.mem_cons_self x []))
    | cons y r2 =>
      have hx : joinNl (x :: y :: r2) = x ++ '\n' :: joinNl (y :: r2) := by
        simp [joinNl, List.intercalate, List.intersperse]
      rw [hx, splitNl_append_nl,
        splitNl_of_no_nl x (hnl x (List.mem_cons_self x _)),
        ih (by simp) (fun ln hm => hnl ln (List.mem_cons_of_mem x hm))]
      simp

theorem joinNl_cons_cons (x y : List Char) (r : List (List Char)) :
    joinNl (x :: y :: r) = x ++ '\n' :: joinNl (y :: r) := by
  simp [joinNl, List.intercalate, List.intersperse]

theorem joinNl_append (xs ys : List (List Char)) (hx : xs ≠ [])
    (hy : ys ≠ []) : joinNl (xs ++ ys) = joinNl xs ++ '\n' :: joinNl ys := by
  induction xs with
  | nil => exact absurd rfl hx
  | cons x r ih =>
    cases r with
    | nil =>
      cases ys with
      | nil => exact absurd rfl hy
      | cons y r2 =>
        simp only [List.cons_append, List.nil_append]
        rw [joinNl_cons_cons]
        simp [joinNl, List.intercalate]
    | cons z r2 =>
      have h2 := ih (by simp)
      have e1 : (x :: z :: r2) ++ ys = x :: z :: (r2 ++ ys) := by simp
      rw [e1, joinNl_cons_cons x z (r2 ++ ys)]
      have e2 : z :: (r2 ++ ys) = (z :: r2) ++ ys := by simp
      rw [e2, h2, joinNl_cons_cons x z r2]
      simp

theorem joinNl_map_blocks (bs : List (List (List Char)))
    (h : ∀ b ∈ bs, b ≠ []) :
    joinNl (bs.map joinNl) = joinNl bs.flatten := by
  induction bs with
  | nil => simp
  | cons b r ih =>
    cases r with
    | nil => simp [joinNl, List.intercalate]
    | cons c r2 =>
      have hb : b ≠ [] := h b (List.mem_cons_self b _)
      have hc : (c :: r2).flatten ≠ [] := by
        have : c ≠ [] := h c (by simp)
        cases c with
        | nil => exact absurd rfl this
        | cons a u => simp
      simp only [List.map_cons, List.flatten_cons]
      rw [joinNl_cons_cons, ← List.map_cons joinNl c r2,
        ih (fun x hx => h x (List.mem_cons_of_mem b hx))]
      have e3 : b ++ (c ++ r2.flatten) = b ++ (c :: r2).flatten := by simp
      rw [e3, joinNl_append b (c :: r2).flatten hb hc]

theorem blocksAux_flatten (ls : List (List Char)) :
    ∀ pending d i, (blocksAux pending d i ls).flatten = pending ++ ls := by
  induction ls with
  | nil =>
    intro pending d i
    by_cases h : pending.isEmpty
    · simp [blocksAux, h, List.isEmpty_iff.mp h]
    · simp [blocksAux, h]
  | cons line rest ih =>
    intro pending d i
    cases hst : startsMemberL (pyStripL line) <;>
      cases hdz :
        (d + (List.count '{' line : Int) - (List.count '}' line : Int)) == 0 <;>
        cases hi : i <;>
          cases hes : endsSemiOrBrace (pyStripL line) <;>
            by_cases hpe : pending.isEmpty <;>
              simp_all [blocksAux, ih, List.flatten_append, List.isEmpty_iff]

theorem blocksAux_ne_nil (ls : List (List Char)) :
    ∀ pending d i, ∀ b ∈ blocksAux pending d i ls, b ≠ [] := by
  induction ls with
  | nil =>
    intro pending d i b hb
    cases hpe : pending.isEmpty <;>
      simp only [blocksAux, hpe, if_true, if_false, Bool.false_eq_true,
        List.mem_singleton, List.not_mem_nil] at hb
    subst hb
    intro he
    rw [he] at hpe
    simp at hpe
  | cons line rest ih =>
    intro pending d i b hb
    cases hpe : pending.isEmpty <;>
      cases hst : startsMemberL (pyStripL line) <;>
        cases hdz :
          (d + (List.count '{' line : Int) - (List.count '}' line : Int))
            == 0 <;>
          cases hi : i <;>
            cases hes : endsSemiOrBrace (pyStripL line) <;>
              simp only [blocksAux, hst, hdz, hi, hes, hpe, Bool.true_and,
                Bool.and_true, Bool.false_and, Bool.and_false, Bool.not_true,
                Bool.not_false, Bool.and_self, if_true, if_false,
                Bool.false_eq_true, Bool.true_eq_false, List.append_nil,
                List.nil_append, List.mem_append, List.mem_cons,
                List.mem_singleton, List.not_mem_nil, false_or,
                or_false] at hb <;>
              (repeat' rcases hb with hb | hb) <;>
              first
                | exact ih _ _ _ b hb
                | (subst hb; simp)
                | (simp; done)
                | (subst hb
                   intro he
                   rw [he] at hpe
                   simp at hpe)
                | (intro he
                   rw [he] at hpe
                   simp at hpe)

/-- Claim C3: the blocks of `split_into_blocks`, rejoined with newlines,
reconstruct the input exactly, and the blocks' line lists partition the
input's lines in order — so every input line lands in exactly one block
and a block still open at the end of the input is flushed, not dropped. -/
theorem split_into_blocks_partition (c : String) :
    joinBlocks (split_into_blocks c) = c ∧
    ((split_into_blocks c).map (fun b => splitNl b.data)).flatten =
      splitNl c.data := by
  have hflat := blocksAux_flatten (splitNl c.data) [] 0 false
  have hne := blocksAux_ne_nil (splitNl c.data) [] 0 false
  have hlines : ∀ bl ∈ blocksAux [] 0 false (splitNl c.data),
      ∀ ln ∈ bl, '\n' ∉ ln := by
    intro bl hbl ln hln
    have hmem : ln ∈ (blocksAux [] 0 false (splitNl c.data)).flatten :=
      List.mem_flatten.mpr ⟨bl, hbl, hln⟩
    rw [hflat] at hmem
    exact mem_splitNl_no_nl c.data ln (by simpa using hmem)
  have hid : (blocksAux [] 0 false (splitNl c.data)).map
      (fun bl => splitNl (joinNl bl)) =
      (blocksAux [] 0 false (splitNl c.data)).map id := by
    exact List.map_congr_left (fun bl hbl =>
      splitNl_joinNl bl (hne bl hbl) (hlines bl hbl))
  constructor
  · unfold joinBlocks split_into_blocks
    rw [List.map_map]
    have he : (fun b : String => b.data) ∘ (fun bl => String.mk (joinNl bl)) =
        joinNl := rfl
    rw [he]
    show String.mk (joinNl ((blocksAux [] 0 false (splitNl c.data)).map joinNl)) = c
    rw [joinNl_map_blocks _ hne, hflat]
    simp only [List.nil_append]
    rw [joinNl_splitNl]
  · unfold split_into_blocks
    rw [List.map_map]
    have he : (fun b : String => splitNl b.data) ∘
        (fun bl => String.mk (joinNl bl)) =
        (fun bl => splitNl (joinNl bl)) := rfl
    rw [he, hid, List.map_id, hflat]
    simp

/-! ### The parsed members -/

/-- The empty `members` dictionary has every category empty. -/
theorem Members.get_default (c : Category) : ({} : Members).get c = [] := by
  cases c <;> rfl

/-- Appending to one category leaves every other category unchanged. -/
theorem Members.get_add (m : Members) (c2 c : Category) (s : String) :
    (m.add c2 s).get c = if c2 = c then m.get c ++ [s] else m.get c := by
  cases c2 <;> cases c <;> simp [Members.add, Members.get]

/-- The member-collection fold of `parse_class_members`, characterized:
each category receives, behind the accumulator's entries, exactly the
stripped texts of its nonblank blocks, in block order. -/
theorem parse_foldl_key (c : Category) (bs : List String) :
    ∀ acc : Members,
      (bs.foldl (fun ms b =>
        if (pyStrip b).data.isEmpty then ms
        else
          match categorize_member b with
          | some c0 => ms.add c0 (pyStrip b)
          | none => ms) acc).get c =
      acc.get c ++ ((bs.filter (fun b =>
        !(pyStrip b).data.isEmpty &&
          decide (categorize_member b = some c))).map pyStrip) := by
  induction bs with
  | nil => intro acc; simp
  | cons b rest ih =>
    intro acc
    simp only [List.foldl_cons, List.filter_cons]
    cases he : (pyStrip b).data.isEmpty
    · cases hc : categorize_member b with
      | none =>
        simp only [he, Bool.false_eq_true, if_false, hc, Bool.not_false,
          Bool.true_and]
        rw [ih]
        simp
      | some c0 =>
        by_cases hcc : c0 = c
        · subst hcc
          simp only [he, Bool.false_eq_true, if_false, hc, Bool.not_false,
            Bool.true_and, decide_eq_true_eq]
          rw [ih, Members.get_add, if_pos rfl]
          simp
        · simp only [he, Bool.false_eq_true, if_false, hc, Bool.not_false,
            Bool.true_and]
          rw [ih, Members.get_add, if_neg hcc]
          have hd : decide (some c0 = some c) = false := by
            simp [hcc]
          simp [hd, hcc]
    · simp only [he, if_true, Bool.not_true, Bool.false_and]
      rw [ih]
      simp

/-- Claim C6, amended: within each category `parse_class_members` stores —
and the builders therefore emit, per claim C5 — exactly the stripped texts
of that category's blocks, in their order of appearance in the source;
the emitted text is the block's text verbatim up to the stripped outer
whitespace and the fixed four-space indentation prefix.  Signal
declarations are the exception the counterexample shows: they are
re-rendered, not preserved. -/
theorem parse_members_stable_stripped (body : String) (c : Category) :
    (parse_class_members body).get c =
      ((split_into_blocks (cleanBody body)).filter (fun b =>
        !(pyStrip b).data.isEmpty &&
          decide (categorize_member b = some c))).map pyStrip := by
  unfold parse_class_members
  rw [parse_foldl_key, Members.get_default]
  simp

set_option maxRecDepth 100000 in
/-- Claim C6 counterexample: `exC6` declares its signal on one line; the
rewritten file is written (`wrote = true`) and still contains one signal
declaration, but the original text `[Signal] public delegate` appears
nowhere in it — `extract_godot_signals` collapsed the whitespace and
inserted a newline after `[Signal]`, so the signal's original formatting
is not preserved. -/
theorem signal_formatting_counterexample :
    containsSub "[Signal] public delegate".data exC6.data = true ∧
    (organize_file false false exC6).wrote = true ∧
    containsSub "[Signal] public delegate".data
      (organize_file false false exC6).disk.data = false ∧
    count_signals (organize_file false false exC6).disk = 1 := by
  refine ⟨?_, ?_, ?_, ?_⟩ <;> rfl

theorem trailScan_shape (l : List Char) :
    ∀ r, trailScan l = some r → r = [] ∨ r.head? = some '\n' := by
  induction l with
  | nil =>
    intro r h
    simp only [trailScan, Option.some_inj] at h
    exact Or.inl h.symm
  | cons c t ih =>
    intro r h
    simp only [trailScan] at h
    by_cases hw : pyWs c
    · rw [if_pos hw] at h
      cases hts : trailScan t with
      | some r2 =>
        rw [hts] at h
        simp only [Option.some_inj] at h
        exact h ▸ ih r2 hts
      | none =>
        rw [hts] at h
        by_cases hn : c == '\n'
        · rw [if_pos hn] at h
          simp only [Option.some_inj] at h
          subst h
          exact Or.inr (by simpa using hn)
        · rw [if_neg hn] at h
          exact absurd h (by simp)
    · rw [if_neg hw] at h
      exact absurd h (by simp)

theorem trailScan_suffix (l : List Char) :
    ∀ r, trailScan l = some r → r <:+ l := by
  induction l with
  | nil =>
    intro r h
    simp only [trailScan, Option.some_inj] at h
    exact h ▸ List.nil_suffix
  | cons c t ih =>
    intro r h
    simp only [trailScan] at h
    by_cases hw : pyWs c
    · rw [if_pos hw] at h
      cases hts : trailScan t with
      | some r2 =>
        rw [hts] at h
        simp only [Option.some_inj] at h
        exact (h ▸ ih r2 hts).trans ⟨[c], rfl⟩
      | none =>
        rw [hts] at h
        by_cases hn : c == '\n'
        · rw [if_pos hn] at h
          simp only [Option.some_inj] at h
          exact h ▸ List.suffix_refl (c :: t)
        · rw [if_neg hn] at h
          exact absurd h (by simp)
    · rw [if_neg hw] at h
      exact absurd h (by simp)

theorem trailScan_head_nl (l : List Char)
    (h : l = [] ∨ l.head? = some '\n') : (trailScan l).isSome = true := by
  cases l with
  | nil => simp [trailScan]
  | cons c t =>
    rcases h with h | h
    · simp at h
    · simp only [List.head?_cons, Option.some_inj] at h
      subst h
      simp only [trailScan]
      rw [if_pos (by simp [pyWs])]
      cases hts : trailScan t with
      | some r2 => simp
      | none => simp

theorem trailScan_ws_append (w r : List Char)
    (hw : ∀ x ∈ w, pyWs x = true)
    (hr : r = [] ∨ r.head? = some '\n') :
    (trailScan (w ++ r)).isSome = true := by
  induction w with
  | nil => simpa using trailScan_head_nl r hr
  | cons c w2 ih =>
    simp only [List.cons_append, trailScan]
    rw [if_pos (hw c (List.mem_cons_self c w2))]
    cases hts : trailScan (w2 ++ r) with
    | some r2 => simp
    | none =>
      have := ih (fun x hx => hw x (List.mem_cons_of_mem c hx))
      rw [hts] at this
      simp at this

theorem commentAltScan_props (l2 : List Char) :
    ∀ (as : List String) (r : List Char), commentAltScan as l2 = some r →
      (r <:+ l2 ∧ (r = [] ∨ r.head? = some '\n')) := by
  intro as
  induction as with
  | nil => intro r h; simp [commentAltScan] at h
  | cons a rest ih =>
    intro r h
    simp only [commentAltScan] at h
    by_cases hp : a.data.isPrefixOf l2
    · rw [if_pos hp] at h
      cases hts : trailScan (l2.drop a.data.length) with
      | some r2 =>
        rw [hts] at h
        simp only [Option.some_inj] at h
        subst h
        exact ⟨(trailScan_suffix _ _ hts).trans (List.drop_suffix _ _),
          trailScan_shape _ _ hts⟩
      | none =>
        rw [hts] at h
        exact ih r h
    · rw [if_neg hp] at h
      exact ih r h

theorem commentAltScan_isSome (l2 : List Char) (as : List String)
    (a : String) (ha : a ∈ as) (hp : a.data.isPrefixOf l2 = true)
    (ht : (trailScan (l2.drop a.data.length)).isSome = true) :
    (commentAltScan as l2).isSome = true := by
  induction as with
  | nil => simp at ha
  | cons b rest ih =>
    simp only [commentAltScan]
    by_cases hbp : b.data.isPrefixOf l2
    · rw [if_pos hbp]
      cases hts : trailScan (l2.drop b.data.length) with
      | some r2 => simp
      | none =>
        rcases List.mem_cons.mp ha with h1 | h1
        · subst h1
          rw [hts] at ht
          simp at ht
        · exact ih h1
    · rw [if_neg hbp]
      rcases List.mem_cons.mp ha with h1 | h1
      · subst h1
        exact absurd hp (by simpa using hbp)
      · exact ih h1

theorem commentLineMatch_suffix (l r : List Char)
    (h : commentLineMatch l = some r) : r <:+ l := by
  unfold commentLineMatch at h
  by_cases hp : "//".data.isPrefixOf (l.dropWhile pyWs)
  · rw [if_pos hp] at h
    have h1 := (commentAltScan_props _ _ _ h).1
    exact ((h1.trans (List.dropWhile_suffix _)).trans
      (List.drop_suffix _ _)).trans (List.dropWhile_suffix _)
  · rw [if_neg hp] at h
    exact absurd h (by simp)

theorem commentLineMatch_shape (l r : List Char)
    (h : commentLineMatch l = some r) : r = [] ∨ r.head? = some '\n' := by
  unfold commentLineMatch at h
  by_cases hp : "//".data.isPrefixOf (l.dropWhile pyWs)
  · rw [if_pos hp] at h
    exact (commentAltScan_props _ _ _ h).2
  · rw [if_neg hp] at h
    exact absurd h (by simp)

theorem commentLineMatch_length (l r : List Char)
    (h : commentLineMatch l = some r) : r.length < l.length := by
  unfold commentLineMatch at h
  by_cases hp : "//".data.isPrefixOf (l.dropWhile pyWs)
  · rw [if_pos hp] at h
    have h1 := (commentAltScan_props _ _ _ h).1
    have h2 : r.length ≤ ((l.dropWhile pyWs).drop 2).length := by
      exact (h1.trans (List.dropWhile_suffix _)).length_le
    have h3 : 2 ≤ (l.dropWhile pyWs).length := by
      obtain ⟨t, ht⟩ := List.isPrefixOf_iff_prefix.mp hp
      rw [← ht]
      simp
    have h4 := (@List.dropWhile_suffix _ l pyWs).length_le
    simp only [List.length_drop] at h2
    omega
  · rw [if_neg hp] at h
    exact absurd h (by simp)

theorem regionLineMatch_props (l r : List Char)
    (h : regionLineMatch l = some r) :
    r <:+ l ∧ (r = [] ∨ r.head? = some '\n') ∧ r.length < l.length := by
  unfold regionLineMatch at h
  by_cases hp : "#region".data.isPrefixOf (l.dropWhile pyWs)
  · rw [if_pos hp] at h
    by_cases hg : (((l.dropWhile pyWs).drop 7).takeWhile pyWs).isEmpty
    · rw [if_pos hg] at h
      exact absurd h (by simp)
    · rw [if_neg hg] at h
      have hsuf : r <:+ l :=
        ((((trailScan_suffix _ _ h).trans
          (List.dropWhile_suffix _)).trans
          (List.dropWhile_suffix _)).trans
          (List.drop_suffix _ _)).trans (List.dropWhile_suffix _)
      have hlen : r.length < l.length := by
        have h2 : r.length ≤ ((l.dropWhile pyWs).drop 7).length :=
          (((trailScan_suffix _ _ h).trans
            (List.dropWhile_suffix _)).trans
            (List.dropWhile_suffix _)).length_le
        have h3 : 7 ≤ (l.dropWhile pyWs).length := by
          obtain ⟨t, ht⟩ := List.isPrefixOf_iff_prefix.mp hp
          rw [← ht]
          simp
        have h4 := (@List.dropWhile_suffix _ l pyWs).length_le
        simp only [List.length_drop] at h2
        omega
      exact ⟨hsuf, trailScan_shape _ _ h, hlen⟩
  · rw [if_neg hp] at h
    exact absurd h (by simp)

theorem endregionLineMatch_props (l r : List Char)
    (h : endregionLineMatch l = some r) :
    r <:+ l ∧ (r = [] ∨ r.head? = some '\n') ∧ r.length < l.length := by
  unfold endregionLineMatch at h
  by_cases hp : "#endregion".data.isPrefixOf (l.dropWhile pyWs)
  · rw [if_pos hp] at h
    have hsuf : r <:+ l :=
      ((trailScan_suffix _ _ h).trans
        (List.drop_suffix _ _)).trans (List.dropWhile_suffix _)
    have hlen : r.length < l.length := by
      have h2 : r.length ≤ ((l.dropWhile pyWs).drop 10).length :=
        (trailScan_suffix _ _ h).length_le
      have h3 : 10 ≤ (l.dropWhile pyWs).length := by
        obtain ⟨t, ht⟩ := List.isPrefixOf_iff_prefix.mp hp
        rw [← ht]
        simp
      have h4 := (@List.dropWhile_suffix _ l pyWs).length_le
      simp only [List.length_drop] at h2
      omega
    exact ⟨hsuf, trailScan_shape _ _ h, hlen⟩
  · rw [if_neg hp] at h
    exact absurd h (by simp)

theorem dropWhile_head_false {α : Type} (p : α → Bool) (l : List α)
    (c : α) (t : List α) (h : l.dropWhile p = c :: t) : p c = false := by
  induction l with
  | nil => simp [List.dropWhile] at h
  | cons x xs ih =>
    rw [List.dropWhile_cons] at h
    by_cases hx : p x
    · rw [if_pos hx] at h
      exact ih h
    · rw [if_neg hx] at h
      cases h
      simpa using hx

theorem dropWhile_rest_shape (l : List Char) :
    l.dropWhile (fun c => c != '\n') = [] ∨
      (l.dropWhile (fun c => c != '\n')).head? = some '\n' := by
  cases h : l.dropWhile (fun c => c != '\n') with
  | nil => exact Or.inl rfl
  | cons c t =>
    have := dropWhile_head_false _ l c t h
    simp only [bne, Bool.not_eq_false', beq_iff_eq] at this
    exact Or.inr (by simp [this])

theorem dropWhile_ws_append_of_ne_nil (a b : List Char)
    (h : a.dropWhile pyWs ≠ []) :
    (a ++ b).dropWhile pyWs = a.dropWhile pyWs ++ b := by
  rw [List.dropWhile_append]
  rw [if_neg (by simpa using h)]

theorem regionLineMatch_complete (l : List Char)
    (hb : regionWsLine (l.takeWhile (fun c => c != '\n')) = true) :
    (regionLineMatch l).isSome = true := by
  unfold regionWsLine at hb
  simp only [Bool.and_eq_true] at hb
  obtain ⟨hp, hw⟩ := hb
  obtain ⟨t7, ht7⟩ := List.isPrefixOf_iff_prefix.mp hp
  have hrest := dropWhile_rest_shape l
  have hsplit := List.takeWhile_append_dropWhile (fun c => c != '\n') l
  have htne : (l.takeWhile (fun c => c != '\n')).dropWhile pyWs ≠ [] := by
    intro he
    rw [he] at ht7
    simp at ht7
  have hdl : l.dropWhile pyWs =
      (l.takeWhile (fun c => c != '\n')).dropWhile pyWs ++
        l.dropWhile (fun c => c != '\n') := by
    conv_lhs => rw [← hsplit]
    exact dropWhile_ws_append_of_ne_nil _ _ htne
  unfold regionLineMatch
  rw [hdl, ← ht7]
  rw [if_pos (by
    apply List.isPrefixOf_iff_prefix.mpr
    exact ⟨t7 ++ l.dropWhile (fun c => c != '\n'), by simp⟩)]
  have hdrop : ("#region".data ++ t7 ++ l.dropWhile (fun c => c != '\n')).drop 7 =
      t7 ++ l.dropWhile (fun c => c != '\n') := by
    simp
  rw [hdrop]
  have ht7head : ∃ c t2, t7 = c :: t2 ∧ pyWs c = true := by
    rw [← ht7] at hw
    cases t7 with
    | nil => simp at hw
    | cons c t2 => exact ⟨c, t2, rfl, by simpa using hw⟩
  obtain ⟨c, t2, hc, hcw⟩ := ht7head
  rw [if_neg (by
    subst hc
    simp [List.takeWhile_cons, hcw])]
  exact trailScan_head_nl _ (dropWhile_rest_shape _)

theorem endregionLineMatch_complete (l : List Char)
    (hb : endregionLine (l.takeWhile (fun c => c != '\n')) = true) :
    (endregionLineMatch l).isSome = true := by
  unfold endregionLine at hb
  simp only [Bool.and_eq_true] at hb
  obtain ⟨hp, hw⟩ := hb
  obtain ⟨t10, ht10⟩ := List.isPrefixOf_iff_prefix.mp hp
  have hrest := dropWhile_rest_shape l
  have hsplit := List.takeWhile_append_dropWhile (fun c => c != '\n') l
  have htne : (l.takeWhile (fun c => c != '\n')).dropWhile pyWs ≠ [] := by
    intro he
    rw [he] at ht10
    simp at ht10
  have hdl : l.dropWhile pyWs =
      (l.takeWhile (fun c => c != '\n')).dropWhile pyWs ++
        l.dropWhile (fun c => c != '\n') := by
    conv_lhs => rw [← hsplit]
    exact dropWhile_ws_append_of_ne_nil _ _ htne
  unfold endregionLineMatch
  rw [hdl, ← ht10]
  rw [if_pos (by
    apply List.isPrefixOf_iff_prefix.mpr
    exact ⟨t10 ++ l.dropWhile (fun c => c != '\n'), by simp⟩)]
  have hdrop :
      ("#endregion".data ++ t10 ++ l.dropWhile (fun c => c != '\n')).drop 10 =
      t10 ++ l.dropWhile (fun c => c != '\n') := by
    simp
  rw [hdrop]
  apply trailScan_ws_append
  · intro x hx
    have hthis : (("#endregion".data ++ t10).drop 10).all pyWs = true := by
      rw [ht10]
      exact hw
    have h0 : ("#endregion".data ++ t10).drop 10 = t10 := by simp
    rw [h0, List.all_eq_true] at hthis
    exact hthis x hx
  · exact dropWhile_rest_shape l

theorem commentLineMatch_complete (l : List Char)
    (hb : sectionCommentLine (l.takeWhile (fun c => c != '\n')) = true) :
    (commentLineMatch l).isSome = true := by
  unfold sectionCommentLine at hb
  simp only [Bool.and_eq_true, List.any_eq_true] at hb
  obtain ⟨hp, a, ha, hap, haw⟩ := hb
  have hane : a.data ≠ [] := by
    have hall : commentAlts.all (fun x => !x.data.isEmpty) = true := by decide
    rw [List.all_eq_true] at hall
    have := hall a ha
    simp at this
    intro he
    rw [he] at this
    simp at this
  obtain ⟨t2, ht2⟩ := List.isPrefixOf_iff_prefix.mp hp
  have hu : List.dropWhile pyWs
      (List.drop 2 (List.dropWhile pyWs
        (List.takeWhile (fun c => c != '\n') l))) =
      List.dropWhile pyWs t2 := by
    rw [← ht2]
    simp
  rw [hu] at hap haw
  have hrest := dropWhile_rest_shape l
  have hsplit := List.takeWhile_append_dropWhile (fun c => c != '\n') l
  have htne : (l.takeWhile (fun c => c != '\n')).dropWhile pyWs ≠ [] := by
    intro he
    rw [he] at ht2
    simp at ht2
  have hdl : l.dropWhile pyWs =
      (l.takeWhile (fun c => c != '\n')).dropWhile pyWs ++
        l.dropWhile (fun c => c != '\n') := by
    conv_lhs => rw [← hsplit]
    exact dropWhile_ws_append_of_ne_nil _ _ htne
  unfold commentLineMatch
  rw [hdl, ← ht2]
  rw [if_pos (by
    apply List.isPrefixOf_iff_prefix.mpr
    exact ⟨t2 ++ l.dropWhile (fun c => c != '\n'), by simp⟩)]
  have hdrop : ((['/', '/'] ++ t2) ++ l.dropWhile (fun c => c != '\n')).drop 2 =
      t2 ++ l.dropWhile (fun c => c != '\n') := by
    simp
  rw [hdrop]
  have hune : t2.dropWhile pyWs ≠ [] := by
    intro he
    obtain ⟨t3, ht3⟩ := List.isPrefixOf_iff_prefix.mp hap
    rw [he] at ht3
    exact hane (by
      cases hd : a.data with
      | nil => rfl
      | cons x xs =>
        rw [hd] at ht3
        simp at ht3)
  have hu2 : (t2 ++ l.dropWhile (fun c => c != '\n')).dropWhile pyWs =
      t2.dropWhile pyWs ++ l.dropWhile (fun c => c != '\n') :=
    dropWhile_ws_append_of_ne_nil _ _ hune
  rw [hu2]
  apply commentAltScan_isSome _ _ a ha
  · apply List.isPrefixOf_iff_prefix.mpr
    obtain ⟨t4, ht4⟩ := List.isPrefixOf_iff_prefix.mp hap
    exact ⟨t4 ++ l.dropWhile (fun c => c != '\n'), by rw [← List.append_assoc, ht4]⟩
  · obtain ⟨t4, ht4⟩ := List.isPrefixOf_iff_prefix.mp hap
    have hlen : a.data.length ≤ (t2.dropWhile pyWs).length := by
      rw [← ht4]
      simp
    rw [List.drop_append_of_le_length hlen]
    apply trailScan_ws_append
    · intro x hx
      have : ((t2.dropWhile pyWs).drop a.data.length).all pyWs = true := haw
      rw [List.all_eq_true] at this
      exact this x hx
    · exact dropWhile_rest_shape l

theorem no_nl_takeWhile (l : List Char) :
    '\n' ∉ l.takeWhile (fun c => c != '\n') := by
  intro h
  have := List.mem_takeWhile_imp h
  simp at this

theorem subGo_lines (mf : List Char → Option (List Char))
    (Bad : List Char → Bool)
    (hshape : ∀ l r, mf l = some r → r = [] ∨ r.head? = some '\n')
    (hlen : ∀ l r, mf l = some r → r.length < l.length)
    (hsuf : ∀ l r, mf l = some r → r <:+ l)
    (hcomp : ∀ l, Bad (l.takeWhile (fun c => c != '\n')) = true →
      (mf l).isSome = true) :
    ∀ (f : Nat) (flag : Bool) (l : List Char), l.length + 1 ≤ f →
      (flag = false → (l = [] ∨ l.head? = some '\n')) →
      ∀ ln ∈ splitNl (subGo mf f flag l),
        ln = [] ∨ (ln ∈ splitNl l ∧ Bad ln = false) := by
  intro f
  induction f with
  | zero =>
    intro flag l hf
    omega
  | succ f ih =>
    intro flag l hf hflag ln hln
    cases l with
    | nil =>
      simp only [subGo, splitNl, List.mem_singleton] at hln
      exact Or.inl hln
    | cons c t =>
      have hsplit := List.takeWhile_append_dropWhile (fun d => d != '\n') (c :: t)
      cases flag with
      | false =>
        rcases hflag rfl with h | h
        · simp at h
        · simp only [List.head?_cons, Option.some_inj] at h
          subst h
          simp only [subGo, Bool.false_eq_true, if_false, ite_self] at hln
          have h1 : (('\n' :: t).takeWhile (fun d => d != '\n')) = [] := by
            simp [List.takeWhile_cons]
          have h2 : (('\n' :: t).dropWhile (fun d => d != '\n')) = '\n' :: t := by
            simp [List.dropWhile_cons]
          rw [h1, h2] at hln
          simp only [List.nil_append, splitNl] at hln
          rw [if_pos (show (('\n' == '\n') = true) from rfl)] at hln
          simp only [List.mem_cons] at hln
          rcases hln with h3 | h3
          · exact Or.inl h3
          · have := ih true t (by simp at hf ⊢; omega) (by simp) ln (by
              simpa using h3)
            rcases this with h4 | ⟨h4, h5⟩
            · exact Or.inl h4
            · refine Or.inr ⟨?_, h5⟩
              show ln ∈ splitNl ('\n' :: t)
              rw [splitNl]
              simp [h4]
      | true =>
        cases hmf : mf (c :: t) with
        | some rest =>
          simp only [subGo, hmf] at hln
          have hrec := ih (consumedEndsNl (c :: t) rest) rest
            (by
              have h9 := hlen _ _ hmf
              simp only [List.length_cons] at h9 hf
              omega)
            (fun _ => hshape _ _ hmf) ln hln
          rcases hrec with h4 | ⟨h4, h5⟩
          · exact Or.inl h4
          · rcases hshape _ _ hmf with hr | hr
            · subst hr
              simp only [splitNl, List.mem_singleton] at h4
              exact Or.inl h4
            · cases rest with
              | nil => simp at hr
              | cons rc rt =>
                simp only [List.head?_cons, Option.some_inj] at hr
                subst hr
                obtain ⟨a, ha⟩ := hsuf _ _ hmf
                rw [splitNl] at h4
                rw [if_pos (show (('\n' == '\n') = true) from rfl)] at h4
                simp only [List.mem_cons] at h4
                rcases h4 with h6 | h6
                · exact Or.inl h6
                · refine Or.inr ⟨?_, h5⟩
                  rw [← ha, splitNl_append_nl]
                  exact List.mem_append_right _ h6
        | none =>
          simp only [subGo, hmf, ite_self] at hln
          have hbad : Bad ((c :: t).takeWhile (fun d => d != '\n')) = false := by
            cases hB : Bad ((c :: t).takeWhile (fun d => d != '\n'))
            · rfl
            · have := hcomp (c :: t) hB
              rw [hmf] at this
              simp at this
          cases hdw : (c :: t).dropWhile (fun d => d != '\n') with
          | nil =>
            rw [hdw] at hln
            rw [splitNl_of_no_nl _ (no_nl_takeWhile (c :: t))] at hln
            simp only [List.mem_singleton] at hln
            subst hln
            have hl : (c :: t).takeWhile (fun d => d != '\n') = c :: t := by
              conv_rhs => rw [← hsplit]
              rw [hdw]
              simp
            refine Or.inr ⟨?_, hbad⟩
            have hss : splitNl (c :: t) =
                [(c :: t).takeWhile (fun d => d != '\n')] := by
              conv_lhs => rw [← hl]
              exact splitNl_of_no_nl _ (no_nl_takeWhile (c :: t))
            rw [hss]
            simp
          | cons dc dt =>
            have hdc : dc = '\n' := by
              have := dropWhile_head_false _ (c :: t) dc dt hdw
              simpa using this
            subst hdc
            rw [hdw] at hln
            rw [splitNl_append_nl] at hln
            rw [splitNl_of_no_nl _ (no_nl_takeWhile (c :: t))] at hln
            have hlsplit : splitNl (c :: t) =
                [(c :: t).takeWhile (fun d => d != '\n')] ++ splitNl dt := by
              conv_lhs => rw [← hsplit, hdw]
              rw [splitNl_append_nl, splitNl_of_no_nl _ (no_nl_takeWhile (c :: t))]
            simp only [List.mem_append, List.mem_singleton] at hln
            rcases hln with h3 | h3
            · subst h3
              refine Or.inr ⟨?_, hbad⟩
              rw [hlsplit]
              simp
            · have hlen2 : dt.length + 1 ≤ f := by
                have : (c :: t).length = ((c :: t).takeWhile (fun d => d != '\n')).length + ('\n' :: dt).length := by
                  conv_lhs => rw [← hsplit, hdw]
                  simp
                simp at hf this
                omega
              have := ih true dt hlen2 (by simp) ln h3
              rcases this with h4 | ⟨h4, h5⟩
              · exact Or.inl h4
              · refine Or.inr ⟨?_, h5⟩
                rw [hlsplit]
                exact List.mem_append_right _ h4

theorem splitNl_chars (l : List Char) :
    ∀ ln ∈ splitNl l, ∀ x ∈ ln, x ∈ l := by
  induction l with
  | nil =>
    intro ln h x hx
    simp only [splitNl, List.mem_singleton] at h
    subst h
    simp at hx
  | cons c t ih =>
    intro ln h x hx
    rw [splitNl] at h
    by_cases hc : c == '\n'
    · rw [if_pos hc] at h
      rcases List.mem_cons.mp h with h1 | h1
      · subst h1; simp at hx
      · exact List.mem_cons_of_mem c (ih ln h1 x hx)
    · rw [if_neg hc] at h
      cases hs : splitNl t with
      | nil => exact absurd hs (splitNl_ne_nil t)
      | cons a r =>
        rw [hs] at h
        rcases List.mem_cons.mp h with h1 | h1
        · subst h1
          rcases List.mem_cons.mp hx with h2 | h2
          · subst h2; simp
          · exact List.mem_cons_of_mem c
              (ih a (hs ▸ List.mem_cons_self a r) x h2)
        · exact List.mem_cons_of_mem c
            (ih ln (hs ▸ List.mem_cons_of_mem a h1) x hx)

theorem getLastD_irrel {α : Type} (l : List α) (a b : α) (h : l ≠ []) :
    l.getLastD a = l.getLastD b := by
  cases l with
  | nil => exact absurd rfl h
  | cons x t =>
    cases t with
    | nil => simp [List.getLastD_cons]
    | cons y t2 => simp only [List.getLastD_cons]

theorem mem_decomp_last {α : Type} (l : List α) :
    ∀ (d x : α), x ∈ l → x ∈ l.dropLast ∨ x = l.getLastD d := by
  induction l with
  | nil => intro d x h; simp at h
  | cons a t ih =>
    intro d x h
    cases t with
    | nil =>
      simp only [List.mem_singleton] at h
      subst h
      exact Or.inr (by simp [List.getLastD_cons])
    | cons b t2 =>
      rcases List.mem_cons.mp h with h1 | h1
      · subst h1
        exact Or.inl (by rw [List.dropLast_cons₂]; simp)
      · rcases ih a x h1 with h2 | h2
        · exact Or.inl (by
            rw [List.dropLast_cons₂]
            exact List.mem_cons_of_mem a h2)
        · exact Or.inr (by rw [List.getLastD_cons]; exact h2)

theorem splitNl_append_general (y v : List Char) :
    splitNl (y ++ v) = (splitNl y).dropLast ++
      ((splitNl y).getLastD [] ++ (splitNl v).headD []) ::
        (splitNl v).tail := by
  induction y with
  | nil =>
    cases hs : splitNl v with
    | nil => exact absurd hs (splitNl_ne_nil v)
    | cons h t => simp [splitNl, hs]
  | cons c t ih =>
    by_cases hc : c == '\n'
    · have hc2 : c = '\n' := by simpa using hc
      subst hc2
      show splitNl ('\n' :: (t ++ v)) = _
      rw [splitNl, if_pos (by simp)]
      rw [ih]
      have hts := splitNl_ne_nil t
      cases hs : splitNl t with
      | nil => exact absurd hs hts
      | cons s0 S =>
        rw [show splitNl ('\n' :: t) = [] :: splitNl t from by
          rw [splitNl, if_pos (by simp)]]
        rw [hs]
        simp [List.getLastD_cons]
    · show splitNl (c :: (t ++ v)) = _
      rw [splitNl, if_neg hc, ih]
      have hct : splitNl (c :: t) = match splitNl t with
          | h :: r => (c :: h) :: r
          | [] => [[c]] := by
        rw [splitNl, if_neg hc]
      cases hs : splitNl t with
      | nil => exact absurd hs (splitNl_ne_nil t)
      | cons s0 S =>
        rw [hct, hs]
        cases S with
        | nil => simp [List.getLastD_cons]
        | cons s1 S2 =>
          simp only [List.dropLast_cons₂, List.getLastD_cons,
            List.cons_append]

theorem getLastD_mem {α : Type} (l : List α) (d : α) (h : l ≠ []) :
    l.getLastD d ∈ l := by
  induction l generalizing d with
  | nil => exact absurd rfl h
  | cons x t ih =>
    cases t with
    | nil => simp [List.getLastD_cons]
    | cons y t2 =>
      rw [List.getLastD_cons]
      exact List.mem_cons_of_mem x (ih x (by simp))

theorem splitNl_pad_right (y v : List Char) :
    ∀ ln ∈ splitNl y, ∃ v2, (∀ x ∈ v2, x ∈ v) ∧
      (ln ++ v2) ∈ splitNl (y ++ v) := by
  intro ln h
  rcases mem_decomp_last (splitNl y) [] ln h with h1 | h1
  · refine ⟨[], by simp, ?_⟩
    rw [splitNl_append_general, List.append_nil]
    exact List.mem_append_left _ h1
  · refine ⟨(splitNl v).headD [], ?_, ?_⟩
    · intro x hx
      cases hs : splitNl v with
      | nil => exact absurd hs (splitNl_ne_nil v)
      | cons hv0 tv =>
        apply splitNl_chars v hv0 (hs ▸ List.mem_cons_self hv0 tv) x
        rw [hs] at hx
        simpa using hx
    · rw [splitNl_append_general, h1]
      exact List.mem_append_right _ (List.mem_cons_self _ _)

theorem splitNl_pad_left (u y : List Char) :
    ∀ ln ∈ splitNl y, ∃ u2, (∀ x ∈ u2, x ∈ u) ∧
      (u2 ++ ln) ∈ splitNl (u ++ y) := by
  intro ln h
  cases hs : splitNl y with
  | nil => exact absurd hs (splitNl_ne_nil y)
  | cons y0 ty =>
    rw [hs] at h
    rcases List.mem_cons.mp h with h1 | h1
    · subst h1
      refine ⟨(splitNl u).getLastD [], ?_, ?_⟩
      · intro x hx
        exact splitNl_chars u _ (getLastD_mem _ _ (splitNl_ne_nil u)) x hx
      · rw [splitNl_append_general, hs]
        simp only [List.headD_cons]
        exact List.mem_append_right _ (List.mem_cons_self _ _)
    · refine ⟨[], by simp, ?_⟩
      rw [List.nil_append, splitNl_append_general, hs]
      simp only [List.tail_cons]
      exact List.mem_append_right _ (List.mem_cons_of_mem _ h1)

theorem pyStripL_decomp (l : List Char) :
    ∃ u v, l = u ++ pyStripL l ++ v ∧ (∀ x ∈ u, pyWs x = true) ∧
      (∀ x ∈ v, pyWs x = true) := by
  refine ⟨l.takeWhile pyWs,
    ((l.dropWhile pyWs).reverse.takeWhile pyWs).reverse, ?_, ?_, ?_⟩
  · unfold pyStripL
    conv_lhs => rw [← List.takeWhile_append_dropWhile pyWs l]
    rw [List.append_assoc]
    congr 1
    conv_lhs => rw [← List.reverse_reverse (l.dropWhile pyWs)]
    conv_lhs =>
      rw [← List.takeWhile_append_dropWhile pyWs (l.dropWhile pyWs).reverse]
    rw [List.reverse_append]
  · exact fun x hx => List.mem_takeWhile_imp hx
  · intro x hx
    rw [List.mem_reverse] at hx
    exact List.mem_takeWhile_imp hx

theorem dropWhile_ws_all_append (u z : List Char)
    (hu : ∀ x ∈ u, pyWs x = true) :
    (u ++ z).dropWhile pyWs = z.dropWhile pyWs := by
  rw [List.dropWhile_append]
  rw [if_pos]
  simp only [List.isEmpty_iff, List.dropWhile_eq_nil_iff]
  exact hu

theorem regionWsLine_pad (u v ln : List Char)
    (hu : ∀ x ∈ u, pyWs x = true) (hv : ∀ x ∈ v, pyWs x = true)
    (h : regionWsLine ln = true) : regionWsLine (u ++ ln ++ v) = true := by
  unfold regionWsLine at h ⊢
  simp only [Bool.and_eq_true] at h ⊢
  obtain ⟨hp, hw⟩ := h
  obtain ⟨t, ht⟩ := List.isPrefixOf_iff_prefix.mp hp
  have htne : ln.dropWhile pyWs ≠ [] := by
    intro he
    rw [he] at ht
    simp at ht
  have h1 : (u ++ ln ++ v).dropWhile pyWs = ln.dropWhile pyWs ++ v := by
    rw [List.append_assoc, dropWhile_ws_all_append _ _ hu,
      dropWhile_ws_append_of_ne_nil _ _ htne]
  rw [h1, ← ht]
  constructor
  · exact List.isPrefixOf_iff_prefix.mpr ⟨t ++ v, by simp⟩
  · rw [← ht] at hw
    have hd7 : ("#region".data ++ t).drop 7 = t := by simp
    rw [hd7] at hw
    have hd7b : (("#region".data ++ t) ++ v).drop 7 = t ++ v := by simp
    rw [hd7b]
    cases t with
    | nil => simp at hw
    | cons c t2 => simpa using hw

theorem endregionLine_pad (u v ln : List Char)
    (hu : ∀ x ∈ u, pyWs x = true) (hv : ∀ x ∈ v, pyWs x = true)
    (h : endregionLine ln = true) : endregionLine (u ++ ln ++ v) = true := by
  unfold endregionLine at h ⊢
  simp only [Bool.and_eq_true] at h ⊢
  obtain ⟨hp, hw⟩ := h
  obtain ⟨t, ht⟩ := List.isPrefixOf_iff_prefix.mp hp
  have htne : ln.dropWhile pyWs ≠ [] := by
    intro he
    rw [he] at ht
    simp at ht
  have h1 : (u ++ ln ++ v).dropWhile pyWs = ln.dropWhile pyWs ++ v := by
    rw [List.append_assoc, dropWhile_ws_all_append _ _ hu,
      dropWhile_ws_append_of_ne_nil _ _ htne]
  rw [h1, ← ht]
  constructor
  · exact List.isPrefixOf_iff_prefix.mpr ⟨t ++ v, by simp⟩
  · rw [← ht] at hw
    have hd : ("#endregion".data ++ t).drop 10 = t := by simp
    rw [hd] at hw
    have hdb : (("#endregion".data ++ t) ++ v).drop 10 = t ++ v := by simp
    rw [hdb, List.all_append]
    simp only [Bool.and_eq_true, List.all_eq_true] at hw ⊢
    exact ⟨hw, hv⟩

theorem sectionCommentLine_pad (u v ln : List Char)
    (hu : ∀ x ∈ u, pyWs x = true) (hv : ∀ x ∈ v, pyWs x = true)
    (h : sectionCommentLine ln = true) :
    sectionCommentLine (u ++ ln ++ v) = true := by
  unfold sectionCommentLine at h ⊢
  simp only [Bool.and_eq_true, List.any_eq_true] at h ⊢
  obtain ⟨hp, a, ha, hap, haw⟩ := h
  obtain ⟨t, ht⟩ := List.isPrefixOf_iff_prefix.mp hp
  have htne : ln.dropWhile pyWs ≠ [] := by
    intro he
    rw [he] at ht
    simp at ht
  have h1 : (u ++ ln ++ v).dropWhile pyWs = ln.dropWhile pyWs ++ v := by
    rw [List.append_assoc, dropWhile_ws_all_append _ _ hu,
      dropWhile_ws_append_of_ne_nil _ _ htne]
  rw [h1, ← ht]
  obtain ⟨t4, ht4⟩ := List.isPrefixOf_iff_prefix.mp hap
  have hune : t.dropWhile pyWs ≠ [] := by
    intro he
    have hane : a.data ≠ [] := by
      have hall : commentAlts.all (fun x => !x.data.isEmpty) = true := by
        decide
      rw [List.all_eq_true] at hall
      have h5 := hall a ha
      intro he2
      rw [he2] at h5
      simp at h5
    rw [← ht] at ht4
    have hd2 : ("//".data ++ t).drop 2 = t := by simp
    rw [hd2] at ht4
    rw [he] at ht4
    cases hd : a.data with
    | nil => exact hane hd
    | cons x xs =>
      rw [hd] at ht4
      simp at ht4
  constructor
  · exact List.isPrefixOf_iff_prefix.mpr ⟨t ++ v, by simp⟩
  · refine ⟨a, ha, ?_, ?_⟩
    · have hd2b : (("//".data ++ t) ++ v).drop 2 = t ++ v := by simp
      rw [hd2b, dropWhile_ws_append_of_ne_nil _ _ hune]
      have hd2 : ("//".data ++ t).drop 2 = t := by simp
      rw [← ht, hd2] at ht4
      exact List.isPrefixOf_iff_prefix.mpr ⟨t4 ++ v, by rw [← List.append_assoc, ht4]⟩
    · have hd2b : (("//".data ++ t) ++ v).drop 2 = t ++ v := by simp
      rw [hd2b, dropWhile_ws_append_of_ne_nil _ _ hune]
      have hd2 : ("//".data ++ t).drop 2 = t := by simp
      rw [← ht, hd2] at ht4 haw
      have hlen : a.data.length ≤ (t.dropWhile pyWs).length := by
        rw [← ht4]
        simp
      rw [List.drop_append_of_le_length hlen, List.all_append]
      simp only [Bool.and_eq_true, List.all_eq_true] at haw ⊢
      exact ⟨haw, hv⟩

theorem runSub_lines_comment (l : List Char) :
    ∀ ln ∈ splitNl (runSub commentLineMatch l),
      ln = [] ∨ (ln ∈ splitNl l ∧ sectionCommentLine ln = false) := by
  intro ln hln
  exact subGo_lines commentLineMatch sectionCommentLine
    commentLineMatch_shape commentLineMatch_length commentLineMatch_suffix
    commentLineMatch_complete (l.length + 1) true l (le_refl _)
    (by simp) ln hln

theorem runSub_lines_region (l : List Char) :
    ∀ ln ∈ splitNl (runSub regionLineMatch l),
      ln = [] ∨ (ln ∈ splitNl l ∧ regionWsLine ln = false) := by
  intro ln hln
  exact subGo_lines regionLineMatch regionWsLine
    (fun a r h => (regionLineMatch_props a r h).2.1)
    (fun a r h => (regionLineMatch_props a r h).2.2)
    (fun a r h => (regionLineMatch_props a r h).1)
    regionLineMatch_complete (l.length + 1) true l (le_refl _)
    (by simp) ln hln

theorem runSub_lines_endregion (l : List Char) :
    ∀ ln ∈ splitNl (runSub endregionLineMatch l),
      ln = [] ∨ (ln ∈ splitNl l ∧ endregionLine ln = false) := by
  intro ln hln
  exact subGo_lines endregionLineMatch endregionLine
    (fun a r h => (endregionLineMatch_props a r h).2.1)
    (fun a r h => (endregionLineMatch_props a r h).2.2)
    (fun a r h => (endregionLineMatch_props a r h).1)
    endregionLineMatch_complete (l.length + 1) true l (le_refl _)
    (by simp) ln hln

/-- Every line of the cleaned body is empty or an original line on which
none of the three deleted-marker patterns matches. -/
theorem cleanBodyL_lines (l : List Char) :
    ∀ ln ∈ splitNl (cleanBodyL l),
      ln = [] ∨ (ln ∈ splitNl l ∧ sectionCommentLine ln = false ∧
        regionWsLine ln = false ∧ endregionLine ln = false) := by
  intro ln hln
  unfold cleanBodyL at hln
  rcases runSub_lines_endregion _ ln hln with h | ⟨h1, h2⟩
  · exact Or.inl h
  rcases runSub_lines_region _ ln h1 with h | ⟨h3, h4⟩
  · exact Or.inl h
  rcases runSub_lines_comment _ ln h3 with h | ⟨h5, h6⟩
  · exact Or.inl h
  exact Or.inr ⟨h5, h6, h4, h2⟩

/-- Every line of a block produced by `split_into_blocks` is a line of the
input. -/
theorem split_into_blocks_lines (s : String) (b : String)
    (hb : b ∈ split_into_blocks s) :
    ∀ ln ∈ splitNl b.data, ln ∈ splitNl s.data := by
  unfold split_into_blocks at hb
  rw [List.mem_map] at hb
  obtain ⟨bl, hbl, hbe⟩ := hb
  have hne := blocksAux_ne_nil (splitNl s.data) [] 0 false bl hbl
  have hmem : ∀ ln ∈ bl, ln ∈ splitNl s.data := by
    intro ln hln
    have hfl : ln ∈ (blocksAux [] 0 false (splitNl s.data)).flatten :=
      List.mem_flatten.mpr ⟨bl, hbl, hln⟩
    rw [blocksAux_flatten] at hfl
    simpa using hfl
  have hnl : ∀ ln ∈ bl, '\n' ∉ ln := fun ln hln =>
    mem_splitNl_no_nl s.data ln (hmem ln hln)
  intro ln hln
  rw [← hbe] at hln
  have hbd : (String.mk (joinNl bl)).data = joinNl bl := rfl
  rw [hbd, splitNl_joinNl bl hne hnl] at hln
  exact hmem ln hln

/-- Claim C10: every member text stored by `parse_class_members` is free of
the organizer's section markers line by line: no line of a stored member is
a canonical `// <Section>` comment line, a `#region` line whose tag is
introduced by whitespace, or a `#endregion` line — `clean_body` removed
all whole lines matching the three marker patterns before the body was
split into blocks. -/
theorem region_markers_cleaned (body : String) (c : Category) (m : String)
    (hm : m ∈ (parse_class_members body).get c) :
    ∀ ln ∈ splitNl m.data,
      sectionCommentLine ln = false ∧ regionWsLine ln = false ∧
        endregionLine ln = false := by
  intro ln hln
  have hms : (parse_class_members body).get c =
      ((split_into_blocks (cleanBody body)).filter (fun b =>
        !(pyStrip b).data.isEmpty &&
          decide (categorize_member b = some c))).map pyStrip := by
    unfold parse_class_members
    rw [parse_foldl_key, Members.get_default]
    simp
  rw [hms, List.mem_map] at hm
  obtain ⟨b, hbf, hbm⟩ := hm
  rw [List.mem_filter] at hbf
  obtain ⟨hb, _⟩ := hbf
  obtain ⟨u, v, hdec, hu, hv⟩ := pyStripL_decomp b.data
  have hmdata : m.data = pyStripL b.data := by rw [← hbm]; rfl
  rw [hmdata] at hln
  obtain ⟨v2, hv2, hlnv⟩ := splitNl_pad_right (pyStripL b.data) v ln hln
  obtain ⟨u2, hu2, hlnu⟩ :=
    splitNl_pad_left u (pyStripL b.data ++ v) (ln ++ v2) hlnv
  have hu2w : ∀ x ∈ u2, pyWs x = true := fun x hx => hu x (hu2 x hx)
  have hv2w : ∀ x ∈ v2, pyWs x = true := fun x hx => hv x (hv2 x hx)
  have hlnb : u2 ++ (ln ++ v2) ∈ splitNl b.data := by
    rw [hdec, List.append_assoc]
    exact hlnu
  have hclean : u2 ++ (ln ++ v2) ∈ splitNl (cleanBodyL body.data) :=
    split_into_blocks_lines (cleanBody body) b hb _ hlnb
  rcases cleanBodyL_lines body.data _ hclean with he | ⟨_, h1, h2, h3⟩
  · have hln0 : ln = [] := by
      simp only [List.append_eq_nil] at he
      exact he.2.1
    subst hln0
    refine ⟨?_, ?_, ?_⟩ <;> decide
  · refine ⟨?_, ?_, ?_⟩
    · cases hsc : sectionCommentLine ln
      · rfl
      · exfalso
        have hx := sectionCommentLine_pad u2 v2 ln hu2w hv2w hsc
        rw [List.append_assoc, h1] at hx
        exact absurd hx (by simp)
    · cases hsc : regionWsLine ln
      · rfl
      · exfalso
        have hx := regionWsLine_pad u2 v2 ln hu2w hv2w hsc
        rw [List.append_assoc, h2] at hx
        exact absurd hx (by simp)
    · cases hsc : endregionLine ln
      · rfl
      · exfalso
        have hx := endregionLine_pad u2 v2 ln hu2w hv2w hsc
        rw [List.append_assoc, h3] at hx
        exact absurd hx (by simp)

set_option maxRecDepth 100000 in
theorem region_markers_cleaned_witness :
    ("public void Foo() \x7b\n#region\x7d" ∈
        (parse_class_members exC10).get Category.public_methods) ∧
      (sectionCommentLine "#region\x7d".data = false ∧
        regionWsLine "#region\x7d".data = false ∧
        endregionLine "#region\x7d".data = false) := by
  have hmem : "public void Foo() \x7b\n#region\x7d" ∈
      (parse_class_members exC10).get Category.public_methods := by
    rw [show (parse_class_members exC10).get Category.public_methods =
        ["public void Foo() \x7b\n#region\x7d"] from rfl]
    exact List.mem_singleton.mpr rfl
  exact ⟨hmem,
    region_markers_cleaned exC10 Category.public_methods
      "public void Foo() \x7b\n#region\x7d" hmem
      ("#region\x7d".data) (by decide)⟩

set_option maxRecDepth 100000 in
theorem region_marker_survives_counterexample :
    (parse_class_members exC10).get Category.public_methods =
      ["public void Foo() \x7b\n#region\x7d"] ∧
    containsSub "#region".data
      (((parse_class_members exC10).get Category.public_methods).headD
        "").data = true := by
  refine ⟨?_, ?_⟩ <;> rfl
